import Mathlib

/-!
Shallow embedding of the material-collection manager of
`src/common/src/Assets/MaterialManager.cpp` (TrenchBroom), together with
theorems settling the behavioural claims about reconciliation, the name
index, deferred commit and clearing.

Conventions of the embedding:
* filesystem paths are strings;
* the external loader `IO::loadTextureCollection` is a parameter of type
  `String → Except String MaterialCollection`;
* the logger is modelled as a trace of `LogLine`s carried in the manager
  state; the quoting punctuation of the original messages is elided;
* `std::map<std::string, Material*>` is modelled as a key-sorted
  association list with insert-or-overwrite semantics.
-/

set_option autoImplicit false

namespace TBSpec

/-- Modelled from the spec: an `Asset`/`Material` ("Attributes: `name` ...,
opaque pixel/GPU-resource payload"); the class itself is not among the
sampled sources, only its use in `MaterialManager.cpp`.  The payload is an
opaque tag distinguishing assets. -/
structure Material where
  name : String
  payload : Nat
deriving DecidableEq, Repr

/-- Modelled from the spec: an `AssetCollection` ("`sourcePath` (identity
key ...), ordered sequence of `Asset` entries, `loaded: bool`,
`prepared: bool`", §4.1); `MaterialCollection.h` is not among the sampled
sources.  `minFilter`/`magFilter` are the bound filter settings and
`prepareCount` counts the calls of the one-time `prepare`. -/
structure MaterialCollection where
  path : String
  materials : List Material
  loaded : Bool
  prepared : Bool
  minFilter : Int
  magFilter : Int
  prepareCount : Nat
deriving DecidableEq, Repr

/-- Modelled from the spec: the placeholder constructed on a failed load,
`Assets::MaterialCollection{path}` — empty asset sequence, `loaded = false`
("A collection with `loaded = false` has an empty asset sequence"). -/
def MaterialCollection.placeholder (path : String) : MaterialCollection :=
  { path := path
    materials := []
    loaded := false
    prepared := false
    minFilter := 0
    magFilter := 0
    prepareCount := 0 }

/-- Modelled from the spec: `prepare(min, mag)` binds the filter settings
and moves the collection to the `Prepared` state (§4.1). -/
def MaterialCollection.prepare (c : MaterialCollection) (minF magF : Int) :
    MaterialCollection :=
  { c with
    prepared := true
    minFilter := minF
    magFilter := magF
    prepareCount := c.prepareCount + 1 }

/-- Modelled from the spec: `setFilterMode(min, mag)` "mutates bound filter
state only if already `Prepared`" (§4.1). -/
def MaterialCollection.setFilterMode (c : MaterialCollection) (minF magF : Int) :
    MaterialCollection :=
  if c.prepared then { c with minFilter := minF, magFilter := magF } else c

/-- One line of the logger trace, tagged with its severity. -/
inductive LogLine where
  | debug : String → LogLine
  | info : String → LogLine
  | error : String → LogLine
deriving DecidableEq, Repr

/-- Whether a log line was emitted at severity `error`. -/
def LogLine.isError : LogLine → Bool
  | .error _ => true
  | _ => false

/-- `kdl::str_to_lower`, modelled as ASCII lower-casing of every character. -/
def strToLower (s : String) : String :=
  ⟨s.data.map Char.toLower⟩

/-- `std::map::find` on the key-sorted association list. -/
def lookupName : List (String × Material) → String → Option Material
  | [], _ => none
  | (k, v) :: rest, key => if key = k then some v else lookupName rest key

/-- Insert-or-overwrite into the key-sorted association list: the model of
the `find`/`insert`-or-assign sequence on `m_texturesByName` in
`MaterialManager::updateTextures`. -/
def mapInsert : List (String × Material) → String → Material →
    List (String × Material)
  | [], k, v => [(k, v)]
  | (k', v') :: rest, k, v =>
    if k < k' then (k, v) :: (k', v') :: rest
    else if k = k' then (k, v) :: rest
    else (k', v') :: mapInsert rest k v

/-- The state of `MaterialManager`: field names follow the C++ members. -/
structure MaterialManager where
  m_collections : List MaterialCollection
  m_toPrepare : List Nat
  m_toRemove : List MaterialCollection
  m_texturesByName : List (String × Material)
  m_textures : List Material
  m_minFilter : Int
  m_magFilter : Int
  m_resetTextureMode : Bool
  m_log : List LogLine
deriving DecidableEq, Repr

/-- `MaterialManager::clear` (lines 138–147): clears the collections, the
pending-prepare queue and the derived name index / flat list; it touches
neither `m_toRemove` nor the filter settings, and logs nothing. -/
def MaterialManager.clear (m : MaterialManager) : MaterialManager :=
  { m with
    m_collections := []
    m_toPrepare := []
    m_texturesByName := []
    m_textures := [] }

/-- `MaterialManager::addTextureCollection` (lines 125–136): append the
collection; if it is loaded and not prepared, enqueue its index into
`m_toPrepare`; emit a debug line. -/
def MaterialManager.addTextureCollection (m : MaterialManager)
    (collection : MaterialCollection) : MaterialManager :=
  let index := m.m_collections.length
  { m with
    m_collections := m.m_collections ++ [collection]
    m_toPrepare :=
      if collection.loaded && !collection.prepared
      then m.m_toPrepare ++ [index]
      else m.m_toPrepare
    m_log :=
      m.m_log ++ [LogLine.debug ("Added texture collection " ++ collection.path)] }

/-- `MaterialManager::updateTextures` (lines 206–232): rebuild
`m_texturesByName` by iterating the collections in order and their
materials in order, overwriting earlier entries with the same lower-cased
key; `m_textures` is the value sequence of the rebuilt map. -/
def MaterialManager.updateTextures (m : MaterialManager) : MaterialManager :=
  let texturesByName :=
    m.m_collections.foldl
      (fun acc collection =>
        collection.materials.foldl
          (fun acc texture => mapInsert acc (strToLower texture.name) texture)
          acc)
      []
  { m with
    m_texturesByName := texturesByName
    m_textures := texturesByName.map (fun kv => kv.2) }

/-- `MaterialManager::texture(name)` (lines 163–167): look the lower-cased
name up in `m_texturesByName`; `nullptr` becomes `none`. -/
def MaterialManager.texture (m : MaterialManager) (name : String) :
    Option Material :=
  lookupName m.m_texturesByName (strToLower name)

/-- The error message of lines 97–98 (quoting punctuation elided). -/
def loadErrorMsg (path msg : String) : String :=
  "Could not load texture collection " ++ path ++ ": " ++ msg

/-- The info message of line 105 (quoting punctuation elided). -/
def loadedMsg (path : String) : String :=
  "Loaded texture collection " ++ path

/-- The `std::find_if` + `erase` pair of lines 86–89 and 115–118: the first
collection whose `path()` equals `path`, together with the list with that
occurrence removed (unchanged when there is no match). -/
def extractFirst (path : String) : List MaterialCollection →
    Option MaterialCollection × List MaterialCollection
  | [] => (none, [])
  | c :: rest =>
    if c.path = path then (some c, rest)
    else
      let r := extractFirst path rest
      (r.1, c :: r.2)

/-- Lines 93–108: invoke the loader for `path` and add the result.  On
failure the error is logged only when `logErr` holds (the C++ guard
`it == collections.end()`), and the placeholder for `path` is added; on
success an info line is logged when the collection is non-empty, and the
loaded collection is added. -/
def loadAndAdd (loader : String → Except String MaterialCollection)
    (path : String) (logErr : Bool) (m : MaterialManager) : MaterialManager :=
  match loader path with
  | Except.error e =>
    let m :=
      if logErr
      then { m with m_log := m.m_log ++ [LogLine.error (loadErrorMsg path e)] }
      else m
    m.addTextureCollection (MaterialCollection.placeholder path)
  | Except.ok collection =>
    let m :=
      if collection.materials.isEmpty then m
      else { m with m_log := m.m_log ++ [LogLine.info (loadedMsg path)] }
    m.addTextureCollection collection

/-- The loop body of `MaterialManager::setTextureCollections` (lines
84–119) acting on the state (manager, previous-generation snapshot, loader
call log).  A path found in the snapshot as a loaded collection is moved
over unchanged; otherwise the loader is invoked (with the error logged only
when the path was absent from the snapshot); any found snapshot entry is
erased. -/
def reconcileStep (loader : String → Except String MaterialCollection)
    (path : String) :
    MaterialManager × List MaterialCollection × List String →
    MaterialManager × List MaterialCollection × List String
  | (m, prev, calls) =>
    match extractFirst path prev with
    | (none, _) =>
      (loadAndAdd loader path true m, prev, calls ++ [path])
    | (some c, rest) =>
      if c.loaded
      then (m.addTextureCollection c, rest, calls)
      else (loadAndAdd loader path false m, rest, calls ++ [path])

/-- The `for` loop of lines 84–119 over the whole target path list. -/
def setTextureCollectionsAux (loader : String → Except String MaterialCollection) :
    List String → MaterialManager × List MaterialCollection × List String →
    MaterialManager × List MaterialCollection × List String
  | [], st => st
  | p :: rest, st => setTextureCollectionsAux loader rest (reconcileStep loader p st)

/-- `MaterialManager::setTextureCollections(paths, fs, textureConfig)`
(lines 76–123): snapshot and clear the live state, process every target
path in order, rebuild the name index, and append the unconsumed snapshot
onto `m_toRemove`. -/
def MaterialManager.setTextureCollections (m : MaterialManager)
    (paths : List String)
    (loader : String → Except String MaterialCollection) : MaterialManager :=
  let st := setTextureCollectionsAux loader paths (m.clear, m.m_collections, [])
  let m2 := st.1.updateTextures
  { m2 with m_toRemove := m2.m_toRemove ++ st.2.1 }

/-- The sequence of paths for which `setTextureCollections` invokes the
loader, in invocation order. -/
def reconcileCallLog (m : MaterialManager) (paths : List String)
    (loader : String → Except String MaterialCollection) : List String :=
  (setTextureCollectionsAux loader paths (m.clear, m.m_collections, [])).2.2

/-- The previous-generation snapshot left over after the loop of
`setTextureCollections` — exactly what line 122 appends to `m_toRemove`. -/
def reconcileRemaining (m : MaterialManager) (paths : List String)
    (loader : String → Except String MaterialCollection) :
    List MaterialCollection :=
  (setTextureCollectionsAux loader paths (m.clear, m.m_collections, [])).2.1

/-- `MaterialManager::setTextureMode` (lines 149–154). -/
def MaterialManager.setTextureMode (m : MaterialManager)
    (minF magF : Int) : MaterialManager :=
  { m with m_minFilter := minF, m_magFilter := magF, m_resetTextureMode := true }

/-- `MaterialManager::resetTextureMode` (lines 184–194): when the flag is
set, rebind the filter mode on every collection and reset the flag. -/
def MaterialManager.resetTextureMode (m : MaterialManager) : MaterialManager :=
  if m.m_resetTextureMode then
    { m with
      m_collections :=
        m.m_collections.map (fun c => c.setFilterMode m.m_minFilter m.m_magFilter)
      m_resetTextureMode := false }
  else m

/-- `MaterialManager::prepare` (lines 196–204): for each queued index,
replace the collection at that index by its prepared form (the C++ prepares
in place through `m_collections[index]`), then clear the queue. -/
def MaterialManager.prepare (m : MaterialManager) : MaterialManager :=
  let collections :=
    m.m_toPrepare.foldl
      (fun cs index =>
        cs.set index
          ((cs.getD index (MaterialCollection.placeholder "")).prepare
            m.m_minFilter m.m_magFilter))
      m.m_collections
  { m with m_collections := collections, m_toPrepare := [] }

/-- `MaterialManager::commitChanges` (lines 156–161): apply a pending
filter-mode change, drain the pending-prepare queue, clear the removal
queue. -/
def MaterialManager.commitChanges (m : MaterialManager) : MaterialManager :=
  { m.resetTextureMode.prepare with m_toRemove := [] }

/-- `MaterialManager::reload` (lines 54–65): the result of
`findTextureCollections` (a collaborator outside the sampled sources) is
passed in; on success reconcile against it, on failure log one error and
reconcile against the empty target list. -/
def MaterialManager.reload (m : MaterialManager)
    (findResult : Except String (List String))
    (loader : String → Except String MaterialCollection) : MaterialManager :=
  match findResult with
  | Except.ok paths => m.setTextureCollections paths loader
  | Except.error e =>
    ({ m with
        m_log :=
          m.m_log ++
            [LogLine.error ("Could not reload texture collections: " ++ e)] }).setTextureCollections
      [] loader

/-- Whether the snapshot holds a loaded collection at `path` — the
condition under which lines 91 and 110–113 reuse instead of reloading. -/
def hasLoadedB (prev : List MaterialCollection) (path : String) : Bool :=
  prev.any (fun c => c.path = path && c.loaded)

/-- Whether the snapshot holds any collection at `path`. -/
def hasEntryB (prev : List MaterialCollection) (path : String) : Bool :=
  prev.any (fun c => c.path = path)

/-- The error lines that processing `path` against the snapshot `prev`
emits: exactly one when the path is fresh and its load fails, none
otherwise. -/
def pathErrorLines (prev : List MaterialCollection)
    (loader : String → Except String MaterialCollection) (path : String) :
    List LogLine :=
  if hasEntryB prev path then []
  else
    match loader path with
    | Except.error e => [LogLine.error (loadErrorMsg path e)]
    | Except.ok _ => []

/-- All error lines a reconciliation against `paths` emits, in order. -/
def reconcileErrors (prev : List MaterialCollection)
    (loader : String → Except String MaterialCollection) :
    List String → List LogLine
  | [] => []
  | p :: rest =>
    pathErrorLines prev loader p ++ reconcileErrors prev loader rest

/-- What the loader's answer for `path` contributes: the loaded collection
on success, the placeholder on failure. -/
def loadResult (loader : String → Except String MaterialCollection)
    (path : String) : MaterialCollection :=
  match loader path with
  | Except.ok d => d
  | Except.error _ => MaterialCollection.placeholder path

/-- The collection that reconciliation puts at a given path's position:
the snapshot entry when it is loaded, otherwise the loader's result or the
placeholder. -/
def producedCollection (prev : List MaterialCollection)
    (loader : String → Except String MaterialCollection) (path : String) :
    MaterialCollection :=
  match (extractFirst path prev).1 with
  | some c => if c.loaded then c else loadResult loader path
  | none => loadResult loader path

/-- The pending-prepare queue invariant: every queued index is in range,
and the collection there is loaded and not yet prepared. -/
def PrepInv (m : MaterialManager) : Prop :=
  ∀ i ∈ m.m_toPrepare,
    i < m.m_collections.length ∧
    (m.m_collections.getD i (MaterialCollection.placeholder "")).loaded = true ∧
    (m.m_collections.getD i (MaterialCollection.placeholder "")).prepared = false

instance (m : MaterialManager) : Decidable (PrepInv m) := by
  unfold PrepInv
  infer_instance


/-! ### The name index: lookup lemmas -/

/-- The last material in `ms` whose lower-cased name is `key`, starting
from a previous candidate `acc`. -/
def lastMatchFrom (acc : Option Material) (ms : List Material) (key : String) :
    Option Material :=
  ms.foldl (fun acc t => if strToLower t.name = key then some t else acc) acc

/-- `lastMatchFrom` over a list of collections, in collection order. -/
def lastMatchCols (acc : Option Material) (cs : List MaterialCollection)
    (key : String) : Option Material :=
  cs.foldl (fun acc c => lastMatchFrom acc c.materials key) acc

theorem lookupName_mapInsert (l : List (String × Material)) (k : String)
    (v : Material) (key : String) :
    lookupName (mapInsert l k v) key
      = if key = k then some v else lookupName l key := by
  induction l with
  | nil => simp [mapInsert, lookupName]
  | cons hd tl ih =>
    obtain ⟨k', v'⟩ := hd
    simp only [mapInsert]
    by_cases hlt : k < k'
    · simp only [if_pos hlt, lookupName]
    · rw [if_neg hlt]
      by_cases heq : k = k'
      · subst heq
        simp only [if_pos rfl, lookupName]
        by_cases hk : key = k <;> simp [hk]
      · rw [if_neg heq]
        simp only [lookupName, ih]
        by_cases hk' : key = k' <;> by_cases hk : key = k <;> simp_all

theorem lookupName_foldInsert (ms : List Material)
    (acc : List (String × Material)) (key : String) :
    lookupName
        (ms.foldl (fun a t => mapInsert a (strToLower t.name) t) acc) key
      = lastMatchFrom (lookupName acc key) ms key := by
  induction ms generalizing acc with
  | nil => rfl
  | cons t ms ih =>
    simp only [List.foldl_cons, lastMatchFrom] at *
    rw [ih]
    congr 1
    rw [lookupName_mapInsert]
    by_cases h : strToLower t.name = key
    · simp [h]
    · have h' : key ≠ strToLower t.name := fun hc => h hc.symm
      simp [h, h']

theorem lookupName_foldCols (cs : List MaterialCollection)
    (acc : List (String × Material)) (key : String) :
    lookupName
        (cs.foldl
          (fun a c =>
            c.materials.foldl (fun a t => mapInsert a (strToLower t.name) t) a)
          acc) key
      = lastMatchCols (lookupName acc key) cs key := by
  induction cs generalizing acc with
  | nil => rfl
  | cons c cs ih =>
    simp only [List.foldl_cons, lastMatchCols] at *
    rw [ih, lookupName_foldInsert]

theorem texture_updateTextures (m : MaterialManager) (q : String) :
    (m.updateTextures).texture q
      = lastMatchCols none m.m_collections (strToLower q) := by
  show lookupName
      (m.m_collections.foldl
        (fun a c =>
          c.materials.foldl (fun a t => mapInsert a (strToLower t.name) t) a)
        []) (strToLower q)
    = lastMatchCols none m.m_collections (strToLower q)
  rw [lookupName_foldCols]
  rfl

theorem lastMatchFrom_no_match (ms : List Material) (key : String)
    (o : Option Material) (h : ∀ t ∈ ms, strToLower t.name ≠ key) :
    lastMatchFrom o ms key = o := by
  induction ms generalizing o with
  | nil => rfl
  | cons t ms ih =>
    have ht : strToLower t.name ≠ key := h t (by simp)
    show lastMatchFrom (if strToLower t.name = key then some t else o) ms key = o
    rw [if_neg ht]
    exact ih o (fun u hu => h u (by simp [hu]))

theorem lastMatchFrom_of_match (ms : List Material) (key : String)
    (o : Option Material) (h : ∃ t ∈ ms, strToLower t.name = key) :
    ∃ t ∈ ms, lastMatchFrom o ms key = some t ∧ strToLower t.name = key := by
  induction ms generalizing o with
  | nil => simp at h
  | cons t ms ih =>
    by_cases hms : ∃ u ∈ ms, strToLower u.name = key
    · obtain ⟨u, hu, hval, hkey⟩ :=
        ih (if strToLower t.name = key then some t else o) hms
      exact ⟨u, by simp [hu], hval, hkey⟩
    · have ht : strToLower t.name = key := by
        obtain ⟨x, hx, hk⟩ := h
        rcases List.mem_cons.mp hx with rfl | hx'
        · exact hk
        · exact absurd ⟨x, hx', hk⟩ hms
      refine ⟨t, by simp, ?_, ht⟩
      show lastMatchFrom (if strToLower t.name = key then some t else o) ms key
          = some t
      rw [if_pos ht]
      exact lastMatchFrom_no_match ms key (some t)
        (fun u hu hk => hms ⟨u, hu, hk⟩)

theorem lastMatchCols_no_match (cs : List MaterialCollection) (key : String)
    (o : Option Material)
    (h : ∀ c ∈ cs, ∀ t ∈ c.materials, strToLower t.name ≠ key) :
    lastMatchCols o cs key = o := by
  induction cs generalizing o with
  | nil => rfl
  | cons c cs ih =>
    show lastMatchCols (lastMatchFrom o c.materials key) cs key = o
    rw [lastMatchFrom_no_match c.materials key o (h c (by simp))]
    exact ih o (fun c' hc' => h c' (by simp [hc']))

/-! ### Claims C2, C6, C7, C8 -/

/-- C2: after the name index is rebuilt from an ordered list of
collections, lookup is case-insensitive and later collections win on name
conflict: for collections `[A, B]` both containing an asset matching the
query, `texture` returns one of B's assets; for `[A]` alone it returns one
of A's assets; a query whose lower-cased form no collection maps resolves
to `none`. -/
theorem find_is_case_insensitive_and_later_collections_win
    (m : MaterialManager) (A B : MaterialCollection) (q : String)
    (hB : ∃ b ∈ B.materials, strToLower b.name = strToLower q) :
    (∃ b ∈ B.materials,
        strToLower b.name = strToLower q ∧
        ({ m with m_collections := [A, B] }).updateTextures.texture q = some b) ∧
    ((∃ a ∈ A.materials, strToLower a.name = strToLower q) →
      ∃ a ∈ A.materials,
        strToLower a.name = strToLower q ∧
        ({ m with m_collections := [A] }).updateTextures.texture q = some a) ∧
    (∀ m' : MaterialManager,
      (∀ c ∈ m'.m_collections, ∀ t ∈ c.materials,
        strToLower t.name ≠ strToLower q) →
      m'.updateTextures.texture q = none) := by
  refine ⟨?_, ?_, ?_⟩
  · rw [texture_updateTextures]
    show ∃ b ∈ B.materials, _ ∧
      lastMatchCols none [A, B] (strToLower q) = some b
    have hAB : lastMatchCols none [A, B] (strToLower q)
        = lastMatchFrom (lastMatchFrom none A.materials (strToLower q))
            B.materials (strToLower q) := rfl
    rw [hAB]
    obtain ⟨b, hb, hval, hkey⟩ :=
      lastMatchFrom_of_match B.materials (strToLower q)
        (lastMatchFrom none A.materials (strToLower q)) hB
    exact ⟨b, hb, hkey, hval⟩
  · intro hA
    rw [texture_updateTextures]
    have hA1 : lastMatchCols none [A] (strToLower q)
        = lastMatchFrom none A.materials (strToLower q) := rfl
    rw [hA1]
    obtain ⟨a, ha, hval, hkey⟩ :=
      lastMatchFrom_of_match A.materials (strToLower q) none hA
    exact ⟨a, ha, hkey, hval⟩
  · intro m' hnone
    rw [texture_updateTextures]
    exact lastMatchCols_no_match m'.m_collections (strToLower q) none hnone

/-- A manager with empty state, used to instantiate witnesses. -/
def emptyManager : MaterialManager :=
  { m_collections := []
    m_toPrepare := []
    m_toRemove := []
    m_texturesByName := []
    m_textures := []
    m_minFilter := 0
    m_magFilter := 0
    m_resetTextureMode := false
    m_log := [] }

/-- A collection holding one asset named "X" with payload 1. -/
def colA : MaterialCollection :=
  { path := "a.tex"
    materials := [{ name := "X", payload := 1 }]
    loaded := true
    prepared := false
    minFilter := 0
    magFilter := 0
    prepareCount := 0 }

/-- A collection holding one asset named "x" with payload 2. -/
def colB : MaterialCollection :=
  { path := "b.tex"
    materials := [{ name := "x", payload := 2 }]
    loaded := true
    prepared := false
    minFilter := 0
    magFilter := 0
    prepareCount := 0 }

theorem find_is_case_insensitive_and_later_collections_win_witness :
    (∃ b ∈ colB.materials, strToLower b.name = strToLower "X") ∧
    ∃ b ∈ colB.materials,
      strToLower b.name = strToLower "X" ∧
      ({ emptyManager with
          m_collections := [colA, colB] }).updateTextures.texture "X" = some b := by
  have hB : ∃ b ∈ colB.materials, strToLower b.name = strToLower "X" := by
    decide
  exact ⟨hB,
    (find_is_case_insensitive_and_later_collections_win
      emptyManager colA colB "X" hB).1⟩

/-- C6: when finding the texture collections fails, `reload` logs exactly
one error, reconciles against the empty target list — leaving the live
collection list, name index, flat asset list and pending-prepare queue
empty and scheduling every previously held collection for removal — and
raises no second error. -/
theorem reload_failure_recovers_against_empty_list (m : MaterialManager)
    (e : String) (loader : String → Except String MaterialCollection) :
    (m.reload (Except.error e) loader).m_collections = [] ∧
    (m.reload (Except.error e) loader).m_texturesByName = [] ∧
    (m.reload (Except.error e) loader).m_textures = [] ∧
    (m.reload (Except.error e) loader).m_toPrepare = [] ∧
    (m.reload (Except.error e) loader).m_toRemove
      = m.m_toRemove ++ m.m_collections ∧
    (m.reload (Except.error e) loader).m_log
      = m.m_log ++
          [LogLine.error ("Could not reload texture collections: " ++ e)] :=
  ⟨rfl, rfl, rfl, rfl, rfl, rfl⟩

/-- C7: `clear` empties the collection list, the pending-prepare queue,
the name index and the flat asset list, and leaves the removal queue, the
filter settings, the filter-settings-dirty flag (and the log) untouched. -/
theorem clear_resets_only_live_state (m : MaterialManager) :
    m.clear.m_collections = [] ∧
    m.clear.m_toPrepare = [] ∧
    m.clear.m_texturesByName = [] ∧
    m.clear.m_textures = [] ∧
    m.clear.m_toRemove = m.m_toRemove ∧
    m.clear.m_minFilter = m.m_minFilter ∧
    m.clear.m_magFilter = m.m_magFilter ∧
    m.clear.m_resetTextureMode = m.m_resetTextureMode ∧
    m.clear.m_log = m.m_log :=
  ⟨rfl, rfl, rfl, rfl, rfl, rfl, rfl, rfl, rfl⟩

/-- C8: `clear` is idempotent — clearing twice yields exactly the state of
clearing once. -/
theorem clear_idempotent (m : MaterialManager) :
    m.clear.clear = m.clear := rfl

/-! ### Snapshot extraction lemmas -/

theorem extractFirst_nil (p : String) : extractFirst p [] = (none, []) := rfl

theorem extractFirst_cons (p : String) (c : MaterialCollection)
    (rest : List MaterialCollection) :
    extractFirst p (c :: rest)
      = if c.path = p then (some c, rest)
        else ((extractFirst p rest).1, c :: (extractFirst p rest).2) := rfl

theorem hasEntryB_nil (p : String) : hasEntryB [] p = false := rfl

theorem hasEntryB_cons (p : String) (c : MaterialCollection)
    (rest : List MaterialCollection) :
    hasEntryB (c :: rest) p = (decide (c.path = p) || hasEntryB rest p) := by
  simp [hasEntryB]

theorem hasLoadedB_cons (p : String) (c : MaterialCollection)
    (rest : List MaterialCollection) :
    hasLoadedB (c :: rest) p
      = ((decide (c.path = p) && c.loaded) || hasLoadedB rest p) := by
  simp [hasLoadedB]

theorem hasEntryB_eq_false_iff (l : List MaterialCollection) (p : String) :
    hasEntryB l p = false ↔ ∀ c ∈ l, c.path ≠ p := by
  simp [hasEntryB]

theorem hasLoadedB_eq_true_iff (l : List MaterialCollection) (p : String) :
    hasLoadedB l p = true ↔ ∃ c ∈ l, c.path = p ∧ c.loaded = true := by
  simp [hasLoadedB]

theorem hasLoadedB_eq_false_of_hasEntryB (l : List MaterialCollection)
    (p : String) (h : hasEntryB l p = false) : hasLoadedB l p = false := by
  rw [Bool.eq_false_iff]
  intro hl
  obtain ⟨c, hc, hcp, _⟩ := (hasLoadedB_eq_true_iff l p).mp hl
  exact (hasEntryB_eq_false_iff l p).mp h c hc hcp

theorem extractFirst_fst_none_iff (p : String) (l : List MaterialCollection) :
    (extractFirst p l).1 = none ↔ hasEntryB l p = false := by
  induction l with
  | nil => simp [extractFirst_nil, hasEntryB_nil]
  | cons c rest ih =>
    rw [extractFirst_cons, hasEntryB_cons]
    by_cases h : c.path = p
    · simp [h]
    · simp [h, ih]

theorem extractFirst_snd_of_none (p : String) (l : List MaterialCollection)
    (h : (extractFirst p l).1 = none) : (extractFirst p l).2 = l := by
  induction l with
  | nil => rfl
  | cons c rest ih =>
    rw [extractFirst_cons] at h ⊢
    by_cases hc : c.path = p
    · rw [if_pos hc] at h
      exact absurd h (by simp)
    · rw [if_neg hc] at h ⊢
      simp only at h ⊢
      rw [ih h]

theorem extractFirst_fst_mem (p : String) (l : List MaterialCollection)
    (c : MaterialCollection) (h : (extractFirst p l).1 = some c) :
    c ∈ l ∧ c.path = p := by
  induction l with
  | nil => exact absurd h (by simp [extractFirst_nil])
  | cons d rest ih =>
    rw [extractFirst_cons] at h
    by_cases hd : d.path = p
    · rw [if_pos hd] at h
      simp only at h
      obtain rfl : d = c := by injection h
      exact ⟨by simp, hd⟩
    · rw [if_neg hd] at h
      simp only at h
      obtain ⟨hm, hp⟩ := ih h
      exact ⟨by simp [hm], hp⟩

theorem extractFirst_snd_sublist (p : String) (l : List MaterialCollection) :
    (extractFirst p l).2.Sublist l := by
  induction l with
  | nil => simp [extractFirst_nil]
  | cons c rest ih =>
    rw [extractFirst_cons]
    by_cases hc : c.path = p
    · rw [if_pos hc]
      exact (List.sublist_cons_self c rest)
    · rw [if_neg hc]
      simp only
      exact List.Sublist.cons₂ c ih

theorem mem_extractFirst_snd (p : String) (l : List MaterialCollection)
    (d : MaterialCollection) (hd : d ∈ l) (hne : ¬(d.path = p)) :
    d ∈ (extractFirst p l).2 := by
  induction l with
  | nil => simp at hd
  | cons c rest ih =>
    rw [extractFirst_cons]
    by_cases hc : c.path = p
    · rw [if_pos hc]
      rcases List.mem_cons.mp hd with rfl | hmem
      · exact absurd hc hne
      · exact hmem
    · rw [if_neg hc]
      simp only [List.mem_cons]
      rcases List.mem_cons.mp hd with rfl | hmem
      · exact Or.inl rfl
      · exact Or.inr (ih hmem)

theorem extractFirst_fst_of_extract_other (p q : String) (hne : ¬(q = p)) :
    ∀ l : List MaterialCollection,
      (extractFirst q (extractFirst p l).2).1 = (extractFirst q l).1 := by
  intro l
  induction l with
  | nil => rfl
  | cons c rest ih =>
    rw [extractFirst_cons p]
    by_cases hc : c.path = p
    · rw [if_pos hc]
      simp only
      rw [extractFirst_cons q]
      have hcq : ¬(c.path = q) := fun h => hne (h ▸ hc ▸ rfl)
      rw [if_neg (by rw [hc]; exact fun h => hne h.symm)]
    · rw [if_neg hc]
      simp only
      rw [extractFirst_cons q, extractFirst_cons q]
      by_cases hcq : c.path = q
      · rw [if_pos hcq, if_pos hcq]
      · rw [if_neg hcq, if_neg hcq]
        simp only
        exact ih

theorem hasEntryB_extract_other (p q : String) (hne : ¬(q = p))
    (l : List MaterialCollection) :
    hasEntryB (extractFirst p l).2 q = hasEntryB l q := by
  induction l with
  | nil => rfl
  | cons c rest ih =>
    rw [extractFirst_cons]
    by_cases hc : c.path = p
    · rw [if_pos hc]
      simp only
      rw [hasEntryB_cons]
      have hcq : ¬(c.path = q) := by
        rw [hc]
        exact fun h => hne h.symm
      simp [hcq]
    · rw [if_neg hc]
      simp only
      rw [hasEntryB_cons, hasEntryB_cons, ih]

theorem hasLoadedB_extract_other (p q : String) (hne : ¬(q = p))
    (l : List MaterialCollection) :
    hasLoadedB (extractFirst p l).2 q = hasLoadedB l q := by
  induction l with
  | nil => rfl
  | cons c rest ih =>
    rw [extractFirst_cons]
    by_cases hc : c.path = p
    · rw [if_pos hc]
      simp only
      rw [hasLoadedB_cons]
      have hcq : ¬(c.path = q) := by
        rw [hc]
        exact fun h => hne h.symm
      simp [hcq]
    · rw [if_neg hc]
      simp only
      rw [hasLoadedB_cons, hasLoadedB_cons, ih]

theorem extractFirst_snd_no_entry (p : String) (l : List MaterialCollection)
    (hnd : (l.map (fun c => c.path)).Nodup) (c : MaterialCollection)
    (h : (extractFirst p l).1 = some c) :
    ∀ d ∈ (extractFirst p l).2, ¬(d.path = p) := by
  induction l with
  | nil => simp [extractFirst_nil] at h
  | cons c0 rest ih =>
    rw [extractFirst_cons] at h ⊢
    rw [List.map_cons, List.nodup_cons] at hnd
    by_cases hc : c0.path = p
    · rw [if_pos hc] at h ⊢
      simp only
      intro d hd hdp
      exact hnd.1 (by
        rw [← hc] at hdp
        rw [← hdp]
        exact List.mem_map_of_mem (fun c => c.path) hd)
    · rw [if_neg hc] at h ⊢
      simp only at h ⊢
      intro d hd
      rcases List.mem_cons.mp hd with rfl | hmem
      · exact hc
      · exact ih hnd.2 h d hmem

theorem hasLoadedB_false_of_extract_notLoaded (p : String)
    (l : List MaterialCollection) (hnd : (l.map (fun c => c.path)).Nodup)
    (c : MaterialCollection) (h : (extractFirst p l).1 = some c)
    (hnl : c.loaded = false) : hasLoadedB l p = false := by
  induction l with
  | nil => simp [extractFirst_nil] at h
  | cons c0 rest ih =>
    rw [extractFirst_cons] at h
    rw [List.map_cons, List.nodup_cons] at hnd
    rw [hasLoadedB_cons]
    by_cases hc : c0.path = p
    · rw [if_pos hc] at h
      simp only at h
      obtain rfl : c0 = c := by injection h
      have hrest : hasEntryB rest p = false := by
        rw [hasEntryB_eq_false_iff]
        intro d hd hdp
        exact hnd.1 (by
          rw [← hc] at hdp
          rw [← hdp]
          exact List.mem_map_of_mem (fun c => c.path) hd)
      simp [hc, hnl, hasLoadedB_eq_false_of_hasEntryB rest p hrest]
    · rw [if_neg hc] at h
      simp only at h
      simp [hc, ih hnd.2 h]

theorem hasLoadedB_true_of_extract_loaded (p : String)
    (l : List MaterialCollection) (c : MaterialCollection)
    (h : (extractFirst p l).1 = some c) (hl : c.loaded = true) :
    hasLoadedB l p = true := by
  obtain ⟨hm, hp⟩ := extractFirst_fst_mem p l c h
  exact (hasLoadedB_eq_true_iff l p).mpr ⟨c, hm, hp, hl⟩

theorem extractFirst_snd_map_nodup (p : String) (l : List MaterialCollection)
    (hnd : (l.map (fun c => c.path)).Nodup) :
    ((extractFirst p l).2.map (fun c => c.path)).Nodup :=
  List.Nodup.sublist (List.Sublist.map _ (extractFirst_snd_sublist p l)) hnd

/-! ### Step equations and component lemmas -/

theorem reconcileStep_fresh (loader : String → Except String MaterialCollection)
    (p : String) (m : MaterialManager) (prev : List MaterialCollection)
    (calls : List String) (h : (extractFirst p prev).1 = none) :
    reconcileStep loader p (m, prev, calls)
      = (loadAndAdd loader p true m, prev, calls ++ [p]) := by
  simp only [reconcileStep]
  rcases hef : extractFirst p prev with ⟨o, erest⟩
  rw [hef] at h
  simp only at h
  subst h
  rfl

theorem reconcileStep_found_loaded
    (loader : String → Except String MaterialCollection) (p : String)
    (m : MaterialManager) (prev : List MaterialCollection)
    (calls : List String) (c : MaterialCollection)
    (h : (extractFirst p prev).1 = some c) (hl : c.loaded = true) :
    reconcileStep loader p (m, prev, calls)
      = (m.addTextureCollection c, (extractFirst p prev).2, calls) := by
  simp only [reconcileStep]
  rcases hef : extractFirst p prev with ⟨o, erest⟩
  rw [hef] at h
  simp only at h
  subst h
  simp [hl]

theorem reconcileStep_found_notLoaded
    (loader : String → Except String MaterialCollection) (p : String)
    (m : MaterialManager) (prev : List MaterialCollection)
    (calls : List String) (c : MaterialCollection)
    (h : (extractFirst p prev).1 = some c) (hl : c.loaded = false) :
    reconcileStep loader p (m, prev, calls)
      = (loadAndAdd loader p false m, (extractFirst p prev).2, calls ++ [p]) := by
  simp only [reconcileStep]
  rcases hef : extractFirst p prev with ⟨o, erest⟩
  rw [hef] at h
  simp only at h
  subst h
  simp [hl]

theorem addTextureCollection_collections (m : MaterialManager)
    (c : MaterialCollection) :
    (m.addTextureCollection c).m_collections = m.m_collections ++ [c] := rfl

theorem addTextureCollection_toRemove (m : MaterialManager)
    (c : MaterialCollection) :
    (m.addTextureCollection c).m_toRemove = m.m_toRemove := rfl

theorem addTextureCollection_errors (m : MaterialManager)
    (c : MaterialCollection) :
    (m.addTextureCollection c).m_log.filter (fun l => l.isError)
      = m.m_log.filter (fun l => l.isError) := by
  show (m.m_log ++ [LogLine.debug ("Added texture collection " ++ c.path)]).filter
      (fun l => l.isError) = m.m_log.filter (fun l => l.isError)
  rw [List.filter_append]
  simp [LogLine.isError]

theorem loadAndAdd_collections
    (loader : String → Except String MaterialCollection) (p : String)
    (b : Bool) (m : MaterialManager) :
    (loadAndAdd loader p b m).m_collections
      = m.m_collections ++ [loadResult loader p] := by
  unfold loadAndAdd loadResult
  cases hl : loader p with
  | error e =>
    by_cases hb : b <;>
      simp [hb, addTextureCollection_collections]
  | ok c =>
    by_cases he : c.materials.isEmpty <;>
      simp [he, addTextureCollection_collections]

theorem loadAndAdd_toRemove
    (loader : String → Except String MaterialCollection) (p : String)
    (b : Bool) (m : MaterialManager) :
    (loadAndAdd loader p b m).m_toRemove = m.m_toRemove := by
  unfold loadAndAdd
  cases hl : loader p with
  | error e =>
    by_cases hb : b <;> simp [hb, addTextureCollection_toRemove]
  | ok c =>
    by_cases he : c.materials.isEmpty <;>
      simp [he, addTextureCollection_toRemove]

theorem loadAndAdd_errors_logged
    (loader : String → Except String MaterialCollection) (p : String)
    (m : MaterialManager) :
    (loadAndAdd loader p true m).m_log.filter (fun l => l.isError)
      = m.m_log.filter (fun l => l.isError) ++
          (match loader p with
           | Except.error e => [LogLine.error (loadErrorMsg p e)]
           | Except.ok _ => []) := by
  unfold loadAndAdd
  cases hl : loader p with
  | error e =>
    simp only [if_pos rfl]
    rw [addTextureCollection_errors]
    show (m.m_log ++ [LogLine.error (loadErrorMsg p e)]).filter (fun l => l.isError)
        = _
    rw [List.filter_append]
    simp [LogLine.isError]
  | ok c =>
    by_cases he : c.materials.isEmpty
    · simp only [he, if_pos rfl]
      rw [addTextureCollection_errors]
      simp
    · simp only [he]
      rw [addTextureCollection_errors]
      show (m.m_log ++ [LogLine.info (loadedMsg p)]).filter (fun l => l.isError)
          = _
      rw [List.filter_append]
      simp [LogLine.isError]

theorem loadAndAdd_errors_silent
    (loader : String → Except String MaterialCollection) (p : String)
    (m : MaterialManager) :
    (loadAndAdd loader p false m).m_log.filter (fun l => l.isError)
      = m.m_log.filter (fun l => l.isError) := by
  unfold loadAndAdd
  cases hl : loader p with
  | error e =>
    rw [addTextureCollection_errors]
    simp
  | ok c =>
    rw [addTextureCollection_errors]
    by_cases he : c.materials.isEmpty
    · simp [he]
    · simp [he, List.filter_append, LogLine.isError]

/-! ### Frame and fold lemmas for the reconciliation loop -/

theorem addTextureCollection_frame (m : MaterialManager)
    (c : MaterialCollection) :
    (m.addTextureCollection c).m_toRemove = m.m_toRemove ∧
    (m.addTextureCollection c).m_minFilter = m.m_minFilter ∧
    (m.addTextureCollection c).m_magFilter = m.m_magFilter ∧
    (m.addTextureCollection c).m_resetTextureMode = m.m_resetTextureMode :=
  ⟨rfl, rfl, rfl, rfl⟩

theorem loadAndAdd_frame (loader : String → Except String MaterialCollection)
    (p : String) (b : Bool) (m : MaterialManager) :
    (loadAndAdd loader p b m).m_toRemove = m.m_toRemove ∧
    (loadAndAdd loader p b m).m_minFilter = m.m_minFilter ∧
    (loadAndAdd loader p b m).m_magFilter = m.m_magFilter ∧
    (loadAndAdd loader p b m).m_resetTextureMode = m.m_resetTextureMode := by
  unfold loadAndAdd
  cases hl : loader p with
  | error e =>
    by_cases hb : b <;> simp [hb, MaterialManager.addTextureCollection]
  | ok c =>
    by_cases he : c.materials.isEmpty <;>
      simp [he, MaterialManager.addTextureCollection]

theorem reconcileStep_frame (loader : String → Except String MaterialCollection)
    (p : String) (m : MaterialManager) (prev : List MaterialCollection)
    (calls : List String) :
    (reconcileStep loader p (m, prev, calls)).1.m_toRemove = m.m_toRemove ∧
    (reconcileStep loader p (m, prev, calls)).1.m_minFilter = m.m_minFilter ∧
    (reconcileStep loader p (m, prev, calls)).1.m_magFilter = m.m_magFilter ∧
    (reconcileStep loader p (m, prev, calls)).1.m_resetTextureMode
      = m.m_resetTextureMode := by
  rcases hef : extractFirst p prev with ⟨o, erest⟩
  cases o with
  | none =>
    rw [reconcileStep_fresh loader p m prev calls (by rw [hef])]
    exact loadAndAdd_frame loader p true m
  | some c =>
    by_cases hcl : c.loaded
    · rw [reconcileStep_found_loaded loader p m prev calls c (by rw [hef]) hcl]
      exact addTextureCollection_frame m c
    · rw [reconcileStep_found_notLoaded loader p m prev calls c (by rw [hef])
        (Bool.not_eq_true c.loaded ▸ hcl)]
      exact loadAndAdd_frame loader p false m

theorem setAux_frame (loader : String → Except String MaterialCollection) :
    ∀ (paths : List String) (m : MaterialManager)
      (prev : List MaterialCollection) (calls : List String),
      (setTextureCollectionsAux loader paths (m, prev, calls)).1.m_toRemove
          = m.m_toRemove ∧
      (setTextureCollectionsAux loader paths (m, prev, calls)).1.m_minFilter
          = m.m_minFilter ∧
      (setTextureCollectionsAux loader paths (m, prev, calls)).1.m_magFilter
          = m.m_magFilter ∧
      (setTextureCollectionsAux loader paths
          (m, prev, calls)).1.m_resetTextureMode
        = m.m_resetTextureMode := by
  intro paths
  induction paths with
  | nil => intro m prev calls; exact ⟨rfl, rfl, rfl, rfl⟩
  | cons p rest ih =>
    intro m prev calls
    rw [setTextureCollectionsAux]
    rcases hst : reconcileStep loader p (m, prev, calls) with ⟨m1, prev1, calls1⟩
    obtain ⟨h1, h2, h3, h4⟩ := ih m1 prev1 calls1
    have hframe := reconcileStep_frame loader p m prev calls
    rw [hst] at hframe
    exact ⟨h1.trans hframe.1, h2.trans hframe.2.1, h3.trans hframe.2.2.1,
      h4.trans hframe.2.2.2⟩

theorem setAux_remaining_sublist
    (loader : String → Except String MaterialCollection) :
    ∀ (paths : List String) (m : MaterialManager)
      (prev : List MaterialCollection) (calls : List String),
      (setTextureCollectionsAux loader paths (m, prev, calls)).2.1.Sublist prev := by
  intro paths
  induction paths with
  | nil => intro m prev calls; exact List.Sublist.refl prev
  | cons p rest ih =>
    intro m prev calls
    rw [setTextureCollectionsAux]
    rcases hef : extractFirst p prev with ⟨o, erest⟩
    cases o with
    | none =>
      rw [reconcileStep_fresh loader p m prev calls (by rw [hef])]
      exact ih _ prev _
    | some c =>
      have hsnd : (extractFirst p prev).2 = erest := by rw [hef]
      have hsub : erest.Sublist prev := hsnd ▸ extractFirst_snd_sublist p prev
      by_cases hcl : c.loaded
      · rw [reconcileStep_found_loaded loader p m prev calls c (by rw [hef]) hcl,
          hsnd]
        exact (ih _ erest _).trans hsub
      · rw [reconcileStep_found_notLoaded loader p m prev calls c (by rw [hef])
          (Bool.not_eq_true c.loaded ▸ hcl), hsnd]
        exact (ih _ erest _).trans hsub

theorem setAux_remaining_mem
    (loader : String → Except String MaterialCollection) :
    ∀ (paths : List String) (m : MaterialManager)
      (prev : List MaterialCollection) (calls : List String)
      (d : MaterialCollection), d ∈ prev →
      (∀ p ∈ paths, ¬(d.path = p)) →
      d ∈ (setTextureCollectionsAux loader paths (m, prev, calls)).2.1 := by
  intro paths
  induction paths with
  | nil => intro m prev calls d hd _; exact hd
  | cons p rest ih =>
    intro m prev calls d hd habs
    have hdp : ¬(d.path = p) := habs p (by simp)
    rw [setTextureCollectionsAux]
    rcases hef : extractFirst p prev with ⟨o, erest⟩
    cases o with
    | none =>
      rw [reconcileStep_fresh loader p m prev calls (by rw [hef])]
      exact ih _ prev _ d hd (fun q hq => habs q (by simp [hq]))
    | some c =>
      have hsnd : (extractFirst p prev).2 = erest := by rw [hef]
      have hmem : d ∈ erest := hsnd ▸ mem_extractFirst_snd p prev d hd hdp
      by_cases hcl : c.loaded
      · rw [reconcileStep_found_loaded loader p m prev calls c (by rw [hef]) hcl,
          hsnd]
        exact ih _ erest _ d hmem (fun q hq => habs q (by simp [hq]))
      · rw [reconcileStep_found_notLoaded loader p m prev calls c (by rw [hef])
          (Bool.not_eq_true c.loaded ▸ hcl), hsnd]
        exact ih _ erest _ d hmem (fun q hq => habs q (by simp [hq]))

theorem setAux_remaining_no_entry
    (loader : String → Except String MaterialCollection) :
    ∀ (paths : List String) (m : MaterialManager)
      (prev : List MaterialCollection) (calls : List String) (p : String),
      p ∈ paths → (prev.map (fun c => c.path)).Nodup →
      ∀ d ∈ (setTextureCollectionsAux loader paths (m, prev, calls)).2.1,
        ¬(d.path = p) := by
  intro paths
  induction paths with
  | nil => intro m prev calls p hp; simp at hp
  | cons p0 rest ih =>
    intro m prev calls p hp hnd d hd hdp
    rw [setTextureCollectionsAux] at hd
    by_cases hpp : p0 = p
    · subst hpp
      rcases hef : extractFirst p0 prev with ⟨o, erest⟩
      cases o with
      | none =>
        rw [reconcileStep_fresh loader p0 m prev calls (by rw [hef])] at hd
        have hdprev : d ∈ prev :=
          (setAux_remaining_sublist loader rest _ prev _).mem hd
        have hnone : hasEntryB prev p0 = false :=
          (extractFirst_fst_none_iff p0 prev).mp (by rw [hef])
        exact (hasEntryB_eq_false_iff prev p0).mp hnone d hdprev hdp
      | some c =>
        have hsnd : (extractFirst p0 prev).2 = erest := by rw [hef]
        have hclean : ∀ e ∈ erest, ¬(e.path = p0) :=
          hsnd ▸ extractFirst_snd_no_entry p0 prev hnd c (by rw [hef])
        by_cases hcl : c.loaded
        · rw [reconcileStep_found_loaded loader p0 m prev calls c (by rw [hef])
            hcl, hsnd] at hd
          exact hclean d ((setAux_remaining_sublist loader rest _ erest _).mem hd)
            hdp
        · rw [reconcileStep_found_notLoaded loader p0 m prev calls c
            (by rw [hef]) (Bool.not_eq_true c.loaded ▸ hcl), hsnd] at hd
          exact hclean d ((setAux_remaining_sublist loader rest _ erest _).mem hd)
            hdp
    · have hprest : p ∈ rest := by
        rcases List.mem_cons.mp hp with h | h
        · exact absurd h.symm hpp
        · exact h
      rcases hef : extractFirst p0 prev with ⟨o, erest⟩
      cases o with
      | none =>
        rw [reconcileStep_fresh loader p0 m prev calls (by rw [hef])] at hd
        exact ih _ prev _ p hprest hnd d hd hdp
      | some c =>
        have hsnd : (extractFirst p0 prev).2 = erest := by rw [hef]
        have hnd2 : (erest.map (fun c => c.path)).Nodup :=
          hsnd ▸ extractFirst_snd_map_nodup p0 prev hnd
        by_cases hcl : c.loaded
        · rw [reconcileStep_found_loaded loader p0 m prev calls c (by rw [hef])
            hcl, hsnd] at hd
          exact ih _ erest _ p hprest hnd2 d hd hdp
        · rw [reconcileStep_found_notLoaded loader p0 m prev calls c
            (by rw [hef]) (Bool.not_eq_true c.loaded ▸ hcl), hsnd] at hd
          exact ih _ erest _ p hprest hnd2 d hd hdp

theorem producedCollection_extract_other (p q : String) (hne : ¬(q = p))
    (prev : List MaterialCollection)
    (loader : String → Except String MaterialCollection) :
    producedCollection (extractFirst p prev).2 loader q
      = producedCollection prev loader q := by
  unfold producedCollection
  rw [extractFirst_fst_of_extract_other p q hne prev]

theorem pathErrorLines_extract_other (p q : String) (hne : ¬(q = p))
    (prev : List MaterialCollection)
    (loader : String → Except String MaterialCollection) :
    pathErrorLines (extractFirst p prev).2 loader q
      = pathErrorLines prev loader q := by
  unfold pathErrorLines
  rw [hasEntryB_extract_other p q hne prev]

theorem reconcileErrors_congr (prev prev2 : List MaterialCollection)
    (loader : String → Except String MaterialCollection) :
    ∀ paths : List String,
      (∀ p ∈ paths, pathErrorLines prev loader p = pathErrorLines prev2 loader p) →
      reconcileErrors prev loader paths = reconcileErrors prev2 loader paths := by
  intro paths
  induction paths with
  | nil => intro _; rfl
  | cons p rest ih =>
    intro h
    rw [reconcileErrors, reconcileErrors, h p (by simp),
      ih (fun q hq => h q (by simp [hq]))]

/-- The loader call log of the loop: exactly the target paths that do not
have a loaded collection in the snapshot. -/
theorem setAux_calls (loader : String → Except String MaterialCollection) :
    ∀ (paths : List String) (m : MaterialManager)
      (prev : List MaterialCollection) (calls : List String),
      paths.Nodup → (prev.map (fun c => c.path)).Nodup →
      (setTextureCollectionsAux loader paths (m, prev, calls)).2.2
        = calls ++ paths.filter (fun p => !(hasLoadedB prev p)) := by
  intro paths
  induction paths with
  | nil => intro m prev calls _ _; simp [setTextureCollectionsAux]
  | cons p rest ih =>
    intro m prev calls hnd hprev
    rw [List.nodup_cons] at hnd
    rw [setTextureCollectionsAux]
    rcases hef : extractFirst p prev with ⟨o, erest⟩
    have hfilter :
        ∀ prev2 : List MaterialCollection,
          (∀ q ∈ rest, hasLoadedB prev2 q = hasLoadedB prev q) →
          rest.filter (fun q => !(hasLoadedB prev2 q))
            = rest.filter (fun q => !(hasLoadedB prev q)) := by
      intro prev2 h
      exact List.filter_congr (fun q hq => by rw [h q hq])
    cases o with
    | none =>
      rw [reconcileStep_fresh loader p m prev calls (by rw [hef])]
      rw [ih _ prev _ hnd.2 hprev]
      have hload : hasLoadedB prev p = false :=
        hasLoadedB_eq_false_of_hasEntryB prev p
          ((extractFirst_fst_none_iff p prev).mp (by rw [hef]))
      rw [List.filter_cons]
      simp [hload]
    | some c =>
      have hsnd : (extractFirst p prev).2 = erest := by rw [hef]
      have hnd2 : (erest.map (fun c => c.path)).Nodup :=
        hsnd ▸ extractFirst_snd_map_nodup p prev hprev
      have hstable : ∀ q ∈ rest, hasLoadedB erest q = hasLoadedB prev q := by
        intro q hq
        have hqp : ¬(q = p) := fun h => hnd.1 (h ▸ hq)
        rw [← hsnd, hasLoadedB_extract_other p q hqp prev]
      by_cases hcl : c.loaded
      · rw [reconcileStep_found_loaded loader p m prev calls c (by rw [hef]) hcl,
          hsnd]
        rw [ih _ erest _ hnd.2 hnd2, hfilter erest hstable]
        have hload : hasLoadedB prev p = true :=
          hasLoadedB_true_of_extract_loaded p prev c (by rw [hef]) hcl
        rw [List.filter_cons]
        simp [hload]
      · have hcl2 : c.loaded = false := Bool.not_eq_true c.loaded ▸ hcl
        rw [reconcileStep_found_notLoaded loader p m prev calls c (by rw [hef])
          hcl2, hsnd]
        rw [ih _ erest _ hnd.2 hnd2, hfilter erest hstable]
        have hload : hasLoadedB prev p = false :=
          hasLoadedB_false_of_extract_notLoaded p prev hprev c (by rw [hef]) hcl2
        rw [List.filter_cons]
        simp [hload]

/-- The collection list built by the loop: one collection per target path,
in target order, described by `producedCollection` against the original
snapshot. -/
theorem setAux_collections (loader : String → Except String MaterialCollection) :
    ∀ (paths : List String) (m : MaterialManager)
      (prev : List MaterialCollection) (calls : List String),
      paths.Nodup → (prev.map (fun c => c.path)).Nodup →
      (setTextureCollectionsAux loader paths (m, prev, calls)).1.m_collections
        = m.m_collections ++ paths.map (producedCollection prev loader) := by
  intro paths
  induction paths with
  | nil => intro m prev calls _ _; simp [setTextureCollectionsAux]
  | cons p rest ih =>
    intro m prev calls hnd hprev
    rw [List.nodup_cons] at hnd
    rw [setTextureCollectionsAux]
    rcases hef : extractFirst p prev with ⟨o, erest⟩
    cases o with
    | none =>
      rw [reconcileStep_fresh loader p m prev calls (by rw [hef])]
      rw [ih _ prev _ hnd.2 hprev, loadAndAdd_collections]
      have hprod : producedCollection prev loader p = loadResult loader p := by
        unfold producedCollection
        rw [hef]
      rw [List.map_cons, hprod, List.append_assoc]
      rfl
    | some c =>
      have hsnd : (extractFirst p prev).2 = erest := by rw [hef]
      have hnd2 : (erest.map (fun c => c.path)).Nodup :=
        hsnd ▸ extractFirst_snd_map_nodup p prev hprev
      have hmap : rest.map (producedCollection erest loader)
          = rest.map (producedCollection prev loader) := by
        apply List.map_congr_left
        intro q hq
        have hqp : ¬(q = p) := fun h => hnd.1 (h ▸ hq)
        rw [← hsnd, producedCollection_extract_other p q hqp prev loader]
      by_cases hcl : c.loaded
      · rw [reconcileStep_found_loaded loader p m prev calls c (by rw [hef]) hcl,
          hsnd]
        rw [ih _ erest _ hnd.2 hnd2, hmap, addTextureCollection_collections]
        have hprod : producedCollection prev loader p = c := by
          unfold producedCollection
          rw [hef]
          simp [hcl]
        rw [List.map_cons, hprod, List.append_assoc]
        rfl
      · have hcl2 : c.loaded = false := Bool.not_eq_true c.loaded ▸ hcl
        rw [reconcileStep_found_notLoaded loader p m prev calls c (by rw [hef])
          hcl2, hsnd]
        rw [ih _ erest _ hnd.2 hnd2, hmap, loadAndAdd_collections]
        have hprod : producedCollection prev loader p = loadResult loader p := by
          unfold producedCollection
          rw [hef]
          simp [hcl2]
        rw [List.map_cons, hprod, List.append_assoc]
        rfl

/-- The error lines the loop emits: exactly `reconcileErrors` against the
original snapshot — one line per fresh path whose load fails. -/
theorem setAux_errors (loader : String → Except String MaterialCollection) :
    ∀ (paths : List String) (m : MaterialManager)
      (prev : List MaterialCollection) (calls : List String),
      paths.Nodup →
      (setTextureCollectionsAux loader paths (m, prev, calls)).1.m_log.filter
          (fun l => l.isError)
        = m.m_log.filter (fun l => l.isError) ++
            reconcileErrors prev loader paths := by
  intro paths
  induction paths with
  | nil => intro m prev calls _; simp [setTextureCollectionsAux, reconcileErrors]
  | cons p rest ih =>
    intro m prev calls hnd
    rw [List.nodup_cons] at hnd
    rw [setTextureCollectionsAux, reconcileErrors]
    rcases hef : extractFirst p prev with ⟨o, erest⟩
    cases o with
    | none =>
      rw [reconcileStep_fresh loader p m prev calls (by rw [hef])]
      rw [ih _ prev _ hnd.2, loadAndAdd_errors_logged]
      have hentry : hasEntryB prev p = false :=
        (extractFirst_fst_none_iff p prev).mp (by rw [hef])
      have hlines : pathErrorLines prev loader p
          = (match loader p with
             | Except.error e => [LogLine.error (loadErrorMsg p e)]
             | Except.ok _ => []) := by
        unfold pathErrorLines
        rw [hentry]
        simp
      rw [hlines, List.append_assoc]
    | some c =>
      have hsnd : (extractFirst p prev).2 = erest := by rw [hef]
      have hentry : hasEntryB prev p = true := by
        obtain ⟨hm, hp2⟩ := extractFirst_fst_mem p prev c (by rw [hef])
        unfold hasEntryB
        rw [List.any_eq_true]
        exact ⟨c, hm, by simp [hp2]⟩
      have hlines : pathErrorLines prev loader p = [] := by
        unfold pathErrorLines
        rw [hentry]
        simp
      have hstable : reconcileErrors erest loader rest
          = reconcileErrors prev loader rest := by
        apply reconcileErrors_congr
        intro q hq
        have hqp : ¬(q = p) := fun h => hnd.1 (h ▸ hq)
        rw [← hsnd, pathErrorLines_extract_other p q hqp prev loader]
      by_cases hcl : c.loaded
      · rw [reconcileStep_found_loaded loader p m prev calls c (by rw [hef]) hcl,
          hsnd]
        rw [ih _ erest _ hnd.2, hstable, addTextureCollection_errors, hlines]
        simp
      · have hcl2 : c.loaded = false := Bool.not_eq_true c.loaded ▸ hcl
        rw [reconcileStep_found_notLoaded loader p m prev calls c (by rw [hef])
          hcl2, hsnd]
        rw [ih _ erest _ hnd.2, hstable, loadAndAdd_errors_silent, hlines]
        simp

/-! ### Lifting the loop lemmas to `setTextureCollections` -/

theorem setTextureCollections_collections (m : MaterialManager)
    (paths : List String) (loader : String → Except String MaterialCollection)
    (hp : paths.Nodup) (hc : (m.m_collections.map (fun c => c.path)).Nodup) :
    (m.setTextureCollections paths loader).m_collections
      = paths.map (producedCollection m.m_collections loader) := by
  have h := setAux_collections loader paths m.clear m.m_collections [] hp hc
  calc (m.setTextureCollections paths loader).m_collections
      = (setTextureCollectionsAux loader paths
          (m.clear, m.m_collections, [])).1.m_collections := rfl
    _ = m.clear.m_collections ++
          paths.map (producedCollection m.m_collections loader) := h
    _ = paths.map (producedCollection m.m_collections loader) :=
        List.nil_append _

theorem setTextureCollections_errors (m : MaterialManager)
    (paths : List String) (loader : String → Except String MaterialCollection)
    (hp : paths.Nodup) :
    (m.setTextureCollections paths loader).m_log.filter (fun l => l.isError)
      = m.m_log.filter (fun l => l.isError) ++
          reconcileErrors m.m_collections loader paths := by
  have h := setAux_errors loader paths m.clear m.m_collections [] hp
  exact h

theorem setTextureCollections_callLog (m : MaterialManager)
    (paths : List String) (loader : String → Except String MaterialCollection)
    (hp : paths.Nodup) (hc : (m.m_collections.map (fun c => c.path)).Nodup) :
    reconcileCallLog m paths loader
      = paths.filter (fun p => !(hasLoadedB m.m_collections p)) := by
  have h := setAux_calls loader paths m.clear m.m_collections [] hp hc
  exact h.trans (List.nil_append _)

theorem setTextureCollections_toRemove (m : MaterialManager)
    (paths : List String) (loader : String → Except String MaterialCollection) :
    (m.setTextureCollections paths loader).m_toRemove
      = m.m_toRemove ++ reconcileRemaining m paths loader := by
  have h := (setAux_frame loader paths m.clear m.m_collections []).1
  calc (m.setTextureCollections paths loader).m_toRemove
      = (setTextureCollectionsAux loader paths
            (m.clear, m.m_collections, [])).1.m_toRemove ++
          reconcileRemaining m paths loader := rfl
    _ = m.m_toRemove ++ reconcileRemaining m paths loader := by rw [h]; rfl

/-! ### Claim C1 -/

/-- C1: a target path backed by a loaded collection of the previous
generation is not given to the loader — the collection is moved into the
new list unchanged — while every other target path (absent from the
previous generation, or present only as a non-loaded placeholder) is given
to the loader. -/
theorem reconcile_reuses_loaded_and_reloads_the_rest (m : MaterialManager)
    (loader : String → Except String MaterialCollection) (paths : List String)
    (hp : paths.Nodup) (hc : (m.m_collections.map (fun c => c.path)).Nodup)
    (p : String) (hmem : p ∈ paths) :
    ((∃ c ∈ m.m_collections, c.path = p ∧ c.loaded = true) →
      p ∉ reconcileCallLog m paths loader ∧
      ∀ c ∈ m.m_collections, c.path = p →
        c ∈ (m.setTextureCollections paths loader).m_collections) ∧
    ((∀ c ∈ m.m_collections, c.path = p → c.loaded = false) →
      p ∈ reconcileCallLog m paths loader) := by
  rw [setTextureCollections_callLog m paths loader hp hc]
  constructor
  · rintro ⟨c, hcm, hcp, hcl⟩
    have hload : hasLoadedB m.m_collections p = true :=
      (hasLoadedB_eq_true_iff m.m_collections p).mpr ⟨c, hcm, hcp, hcl⟩
    constructor
    · intro hin
      have := (List.mem_filter.mp hin).2
      rw [hload] at this
      simp at this
    · intro d hdm hdp
      rw [setTextureCollections_collections m paths loader hp hc]
      have hentry : hasEntryB m.m_collections p = true := by
        unfold hasEntryB
        rw [List.any_eq_true]
        exact ⟨d, hdm, by simp [hdp]⟩
      obtain ⟨c0, hc0⟩ :
          ∃ c0, (extractFirst p m.m_collections).1 = some c0 := by
        cases ho : (extractFirst p m.m_collections).1 with
        | none =>
          rw [extractFirst_fst_none_iff] at ho
          rw [ho] at hentry
          simp at hentry
        | some c0 => exact ⟨c0, rfl⟩
      obtain ⟨hc0m, hc0p⟩ := extractFirst_fst_mem p m.m_collections c0 hc0
      have hdc0 : d = c0 :=
        List.inj_on_of_nodup_map hc hdm hc0m (by rw [hdp, hc0p])
      have hcd : c = d :=
        List.inj_on_of_nodup_map hc hcm hdm (by rw [hcp, hdp])
      have hdl : d.loaded = true := hcd ▸ hcl
      have hprod : producedCollection m.m_collections loader p = d := by
        unfold producedCollection
        rw [hc0, ← hdc0]
        simp [hdl]
      exact List.mem_map.mpr ⟨p, hmem, hprod⟩
  · intro hall
    have hload : hasLoadedB m.m_collections p = false := by
      cases hbool : hasLoadedB m.m_collections p with
      | false => rfl
      | true =>
        obtain ⟨c, hcm, hcp, hcl⟩ :=
          (hasLoadedB_eq_true_iff m.m_collections p).mp hbool
        rw [hall c hcm hcp] at hcl
        simp at hcl
    exact List.mem_filter.mpr ⟨hmem, by simp [hload]⟩

/-- A previous generation holding only the loaded collection `colA`. -/
def managerW : MaterialManager :=
  { emptyManager with m_collections := [colA] }

/-- A loader that succeeds only for "b.tex". -/
def loaderW : String → Except String MaterialCollection :=
  fun path => if path = "b.tex" then Except.ok colB else Except.error "missing"

theorem reconcile_reuses_loaded_and_reloads_the_rest_witness :
    (["a.tex", "b.tex"] : List String).Nodup ∧
    (managerW.m_collections.map (fun c => c.path)).Nodup ∧
    "a.tex" ∈ ["a.tex", "b.tex"] ∧
    (∃ c ∈ managerW.m_collections, c.path = "a.tex" ∧ c.loaded = true) ∧
    "a.tex" ∉ reconcileCallLog managerW ["a.tex", "b.tex"] loaderW ∧
    ∀ c ∈ managerW.m_collections, c.path = "a.tex" →
      c ∈ (managerW.setTextureCollections
            ["a.tex", "b.tex"] loaderW).m_collections := by
  have h :=
    (reconcile_reuses_loaded_and_reloads_the_rest managerW loaderW
      ["a.tex", "b.tex"] (by decide) (by decide) "a.tex" (by decide)).1
      (by decide)
  exact ⟨by decide, by decide, by decide, by decide, h.1, h.2⟩

/-! ### Claim C3 -/

/-- A loader that fails for every path. -/
def loaderFail : String → Except String MaterialCollection :=
  fun _ => Except.error "boom"

/-- A previous generation holding only a failed placeholder for "a.tex". -/
def managerC3 : MaterialManager :=
  { emptyManager with
      m_collections := [MaterialCollection.placeholder "a.tex"] }

/-- Counterexample to C3 as stated: the load of "a.tex" fails and the
placeholder occupies its position, yet no error line at all is emitted,
because the path was already present in the previous generation (the C++
logs the error only when `it == collections.end()`). -/
theorem failing_retry_emits_no_error_line :
    loaderFail "a.tex" = Except.error "boom" ∧
    (managerC3.setTextureCollections ["a.tex"] loaderFail).m_collections
      = [MaterialCollection.placeholder "a.tex"] ∧
    List.filter (fun l => l.isError)
        (managerC3.setTextureCollections ["a.tex"] loaderFail).m_log = [] := by
  refine ⟨rfl, by decide, by decide⟩

/-- C3 (amended): for every target path that is absent from the previous
generation and whose load fails, reconcile appends the resident placeholder
at that path's position (zero assets, `loaded = false`), continues with the
remaining paths (every target path occupies its position in the new list),
and that failure emits exactly one error line, whose text contains the
path. -/
theorem fresh_failing_load_yields_placeholder_and_one_error
    (m : MaterialManager) (loader : String → Except String MaterialCollection)
    (paths : List String) (p e : String) (i : Nat)
    (hp : paths.Nodup) (hc : (m.m_collections.map (fun c => c.path)).Nodup)
    (hfresh : ∀ c ∈ m.m_collections, ¬(c.path = p))
    (hfail : loader p = Except.error e)
    (hi : paths[i]? = some p) :
    (m.setTextureCollections paths loader).m_collections[i]?
        = some (MaterialCollection.placeholder p) ∧
    (MaterialCollection.placeholder p).materials = [] ∧
    (MaterialCollection.placeholder p).loaded = false ∧
    (m.setTextureCollections paths loader).m_collections.length
        = paths.length ∧
    List.filter (fun l => l.isError)
        (m.setTextureCollections paths loader).m_log
      = List.filter (fun l => l.isError) m.m_log ++
          reconcileErrors m.m_collections loader paths ∧
    pathErrorLines m.m_collections loader p
      = [LogLine.error (loadErrorMsg p e)] ∧
    ∃ l r, loadErrorMsg p e = l ++ p ++ r := by
  have hentry : hasEntryB m.m_collections p = false :=
    (hasEntryB_eq_false_iff m.m_collections p).mpr hfresh
  have hprod : producedCollection m.m_collections loader p
      = MaterialCollection.placeholder p := by
    unfold producedCollection
    rw [(extractFirst_fst_none_iff p m.m_collections).mpr hentry]
    unfold loadResult
    rw [hfail]
  refine ⟨?_, rfl, rfl, ?_, ?_, ?_, ?_⟩
  · rw [setTextureCollections_collections m paths loader hp hc,
      List.getElem?_map, hi]
    simp [hprod]
  · rw [setTextureCollections_collections m paths loader hp hc,
      List.length_map]
  · exact setTextureCollections_errors m paths loader hp
  · unfold pathErrorLines
    rw [hentry, hfail]
    simp
  · exact ⟨"Could not load texture collection ", ": " ++ e, by
      simp [loadErrorMsg, String.append_assoc]⟩

theorem fresh_failing_load_yields_placeholder_and_one_error_witness :
    (["a.tex"] : List String).Nodup ∧
    (emptyManager.m_collections.map (fun c => c.path)).Nodup ∧
    (∀ c ∈ emptyManager.m_collections, ¬(c.path = "a.tex")) ∧
    loaderFail "a.tex" = Except.error "boom" ∧
    (["a.tex"] : List String)[0]? = some "a.tex" ∧
    ((emptyManager.setTextureCollections ["a.tex"] loaderFail).m_collections[0]?
        = some (MaterialCollection.placeholder "a.tex") ∧
      pathErrorLines emptyManager.m_collections loaderFail "a.tex"
        = [LogLine.error (loadErrorMsg "a.tex" "boom")]) := by
  have h :=
    fresh_failing_load_yields_placeholder_and_one_error emptyManager loaderFail
      ["a.tex"] "a.tex" "boom" 0 (by decide) (by decide) (by decide) rfl rfl
  exact ⟨by decide, by decide, by decide, rfl, rfl, h.1, h.2.2.2.2.2.1⟩

/-! ### Claim C10 -/

/-- C10: a path present in the previous generation only as a non-loaded
placeholder and named again in the target list is retried through the
loader; its processing emits no error line (even when the retry fails),
and the old placeholder is dropped from the snapshot rather than appended
to the removal queue. -/
theorem failed_placeholder_path_is_retried_silently (m : MaterialManager)
    (loader : String → Except String MaterialCollection) (paths : List String)
    (p e : String) (c : MaterialCollection)
    (hp : paths.Nodup) (hc : (m.m_collections.map (fun c => c.path)).Nodup)
    (hcm : c ∈ m.m_collections) (hcp : c.path = p) (hnl : c.loaded = false)
    (hmem : p ∈ paths) (_hfail : loader p = Except.error e) :
    p ∈ reconcileCallLog m paths loader ∧
    pathErrorLines m.m_collections loader p = [] ∧
    List.filter (fun l => l.isError)
        (m.setTextureCollections paths loader).m_log
      = List.filter (fun l => l.isError) m.m_log ++
          reconcileErrors m.m_collections loader paths ∧
    (m.setTextureCollections paths loader).m_toRemove
      = m.m_toRemove ++ reconcileRemaining m paths loader ∧
    ∀ d ∈ reconcileRemaining m paths loader, ¬(d.path = p) := by
  have hentry : hasEntryB m.m_collections p = true := by
    unfold hasEntryB
    rw [List.any_eq_true]
    exact ⟨c, hcm, by simp [hcp]⟩
  obtain ⟨c0, hc0⟩ : ∃ c0, (extractFirst p m.m_collections).1 = some c0 := by
    cases ho : (extractFirst p m.m_collections).1 with
    | none =>
      rw [extractFirst_fst_none_iff] at ho
      rw [ho] at hentry
      simp at hentry
    | some c0 => exact ⟨c0, rfl⟩
  obtain ⟨hc0m, hc0p⟩ := extractFirst_fst_mem p m.m_collections c0 hc0
  have hcc0 : c = c0 :=
    List.inj_on_of_nodup_map hc hcm hc0m (by rw [hcp, hc0p])
  have hload : hasLoadedB m.m_collections p = false :=
    hasLoadedB_false_of_extract_notLoaded p m.m_collections hc c0 hc0
      (hcc0 ▸ hnl)
  refine ⟨?_, ?_, ?_, ?_, ?_⟩
  · rw [setTextureCollections_callLog m paths loader hp hc]
    exact List.mem_filter.mpr ⟨hmem, by simp [hload]⟩
  · unfold pathErrorLines
    rw [hentry]
    simp
  · exact setTextureCollections_errors m paths loader hp
  · exact setTextureCollections_toRemove m paths loader
  · exact setAux_remaining_no_entry loader paths m.clear m.m_collections []
      p hmem hc

theorem failed_placeholder_path_is_retried_silently_witness :
    (["a.tex"] : List String).Nodup ∧
    (managerC3.m_collections.map (fun c => c.path)).Nodup ∧
    MaterialCollection.placeholder "a.tex" ∈ managerC3.m_collections ∧
    (MaterialCollection.placeholder "a.tex").path = "a.tex" ∧
    (MaterialCollection.placeholder "a.tex").loaded = false ∧
    "a.tex" ∈ (["a.tex"] : List String) ∧
    loaderFail "a.tex" = Except.error "boom" ∧
    ("a.tex" ∈ reconcileCallLog managerC3 ["a.tex"] loaderFail ∧
      pathErrorLines managerC3.m_collections loaderFail "a.tex" = []) := by
  have h :=
    failed_placeholder_path_is_retried_silently managerC3 loaderFail ["a.tex"]
      "a.tex" "boom" (MaterialCollection.placeholder "a.tex") (by decide)
      (by decide) (by decide) rfl rfl (by decide) rfl
  exact ⟨by decide, by decide, by decide, rfl, rfl, by decide, rfl, h.1, h.2.1⟩

/-! ### Claim C4 -/

theorem loadResult_path (loader : String → Except String MaterialCollection)
    (hload : ∀ p d, loader p = Except.ok d → d.path = p) (p : String) :
    (loadResult loader p).path = p := by
  unfold loadResult
  cases hl : loader p with
  | ok d => exact hload p d hl
  | error e => rfl

/-- Every collection the loop adds has its path among the processed target
paths (given that the loader answers with a collection at the requested
path). -/
theorem setAux_collections_paths
    (loader : String → Except String MaterialCollection)
    (hload : ∀ p d, loader p = Except.ok d → d.path = p) :
    ∀ (paths : List String) (m : MaterialManager)
      (prev : List MaterialCollection) (calls : List String),
      ∀ d ∈ (setTextureCollectionsAux loader paths (m, prev, calls)).1.m_collections,
        d ∈ m.m_collections ∨ d.path ∈ paths := by
  intro paths
  induction paths with
  | nil => intro m prev calls d hd; exact Or.inl hd
  | cons p rest ih =>
    intro m prev calls d hd
    rw [setTextureCollectionsAux] at hd
    rcases hef : extractFirst p prev with ⟨o, erest⟩
    cases o with
    | none =>
      rw [reconcileStep_fresh loader p m prev calls (by rw [hef])] at hd
      rcases ih _ prev _ d hd with hmem | hpath
      · rw [loadAndAdd_collections] at hmem
        rcases List.mem_append.mp hmem with h | h
        · exact Or.inl h
        · right
          have : d = loadResult loader p := by simpa using h
          rw [this, loadResult_path loader hload p]
          simp
      · exact Or.inr (by simp [hpath])
    | some c =>
      have hsnd : (extractFirst p prev).2 = erest := by rw [hef]
      by_cases hcl : c.loaded
      · rw [reconcileStep_found_loaded loader p m prev calls c (by rw [hef]) hcl,
          hsnd] at hd
        rcases ih _ erest _ d hd with hmem | hpath
        · rw [addTextureCollection_collections] at hmem
          rcases List.mem_append.mp hmem with h | h
          · exact Or.inl h
          · right
            have hdc : d = c := by simpa using h
            rw [hdc, (extractFirst_fst_mem p prev c (by rw [hef])).2]
            simp
        · exact Or.inr (by simp [hpath])
      · rw [reconcileStep_found_notLoaded loader p m prev calls c (by rw [hef])
          (Bool.not_eq_true c.loaded ▸ hcl), hsnd] at hd
        rcases ih _ erest _ d hd with hmem | hpath
        · rw [loadAndAdd_collections] at hmem
          rcases List.mem_append.mp hmem with h | h
          · exact Or.inl h
          · right
            have : d = loadResult loader p := by simpa using h
            rw [this, loadResult_path loader hload p]
            simp
        · exact Or.inr (by simp [hpath])

theorem setFilterMode_path (c : MaterialCollection) (a b : Int) :
    (c.setFilterMode a b).path = c.path := by
  unfold MaterialCollection.setFilterMode
  split <;> rfl

theorem prepare_path (c : MaterialCollection) (a b : Int) :
    (c.prepare a b).path = c.path := rfl

/-- Draining the pending-prepare queue only replaces collections by their
prepared forms: every resulting collection shares its path with one of
the originals. -/
theorem foldPrepare_paths (a b : Int) :
    ∀ (idxs : List Nat) (cs : List MaterialCollection),
      ∀ d ∈ idxs.foldl
          (fun cs index =>
            cs.set index
              ((cs.getD index (MaterialCollection.placeholder "")).prepare a b))
          cs,
        ∃ d0 ∈ cs, d.path = d0.path := by
  intro idxs
  induction idxs with
  | nil => intro cs d hd; exact ⟨d, hd, rfl⟩
  | cons i rest ih =>
    intro cs d hd
    rw [List.foldl_cons] at hd
    obtain ⟨d0, hd0, hpath⟩ := ih _ d hd
    by_cases hi : i < cs.length
    · rcases List.mem_or_eq_of_mem_set hd0 with h | h
      · exact ⟨d0, h, hpath⟩
      · refine ⟨cs.getD i (MaterialCollection.placeholder ""), ?_, ?_⟩
        · rw [List.getD_eq_getElem?_getD, List.getElem?_eq_getElem hi]
          exact List.getElem_mem hi
        · rw [hpath, h, prepare_path]
    · rw [List.set_eq_of_length_le (Nat.le_of_not_lt hi)] at hd0
      exact ⟨d0, hd0, hpath⟩

/-- `commitChanges` only rebinds and prepares: every resulting collection
shares its path with a collection that was resident before the commit. -/
theorem commitChanges_collections_paths (m : MaterialManager) :
    ∀ d ∈ m.commitChanges.m_collections,
      ∃ d0 ∈ m.m_collections, d.path = d0.path := by
  intro d hd
  have hd2 : d ∈ m.resetTextureMode.prepare.m_collections := hd
  unfold MaterialManager.prepare at hd2
  obtain ⟨d1, hd1, hpath1⟩ :=
    foldPrepare_paths m.resetTextureMode.m_minFilter
      m.resetTextureMode.m_magFilter m.resetTextureMode.m_toPrepare
      m.resetTextureMode.m_collections d hd2
  unfold MaterialManager.resetTextureMode at hd1
  by_cases hb : m.m_resetTextureMode
  · rw [if_pos hb] at hd1
    simp only at hd1
    obtain ⟨d0, hd0, heq⟩ := List.mem_map.mp hd1
    refine ⟨d0, hd0, ?_⟩
    rw [hpath1, ← heq, setFilterMode_path]
  · rw [if_neg hb] at hd1
    exact ⟨d1, hd1, hpath1⟩

/-- The loader used by the C4 counterexample: it answers "a.tex" with the
loaded collection `colA`. -/
def loaderOkA : String → Except String MaterialCollection :=
  fun _ => Except.ok colA

/-- Counterexample to C4 as stated: the placeholder for "a.tex" is in the
previous generation and is replaced by a fresh load, yet after reconcile
it sits in neither the live list nor the removal queue — it was dropped
synchronously, not scheduled. -/
theorem replaced_placeholder_is_not_queued_for_removal :
    MaterialCollection.placeholder "a.tex" ∈ managerC3.m_collections ∧
    loaderOkA "a.tex" = Except.ok colA ∧
    (managerC3.setTextureCollections ["a.tex"] loaderOkA).m_collections
      = [colA] ∧
    (managerC3.setTextureCollections ["a.tex"] loaderOkA).m_toRemove = [] := by
  exact ⟨by decide, rfl, by decide, by decide⟩

/-- C4 (amended): every collection of the previous generation whose path
is absent from the new target list is not destroyed during reconcile — it
is appended to the removal queue — and only the subsequent commit drains
that queue, after which the collection appears in neither the live list
nor the removal queue.  (A non-loaded placeholder whose path is retried is
instead dropped from the snapshot during reconcile.) -/
theorem superseded_collection_deferred_until_commit (m : MaterialManager)
    (loader : String → Except String MaterialCollection) (paths : List String)
    (c : MaterialCollection) (hcm : c ∈ m.m_collections)
    (habs : ∀ p ∈ paths, ¬(c.path = p))
    (hload : ∀ p d, loader p = Except.ok d → d.path = p) :
    c ∈ (m.setTextureCollections paths loader).m_toRemove ∧
    (∀ d ∈ (m.setTextureCollections paths loader).m_collections,
      ¬(d.path = c.path)) ∧
    c ∉ (m.setTextureCollections paths loader).m_collections ∧
    (m.setTextureCollections paths loader).commitChanges.m_toRemove = [] ∧
    (∀ d ∈ (m.setTextureCollections paths loader).commitChanges.m_collections,
      ¬(d.path = c.path)) ∧
    c ∉ (m.setTextureCollections paths loader).commitChanges.m_collections := by
  have hrem : c ∈ reconcileRemaining m paths loader :=
    setAux_remaining_mem loader paths m.clear m.m_collections [] c hcm habs
  have hpaths : ∀ d ∈ (m.setTextureCollections paths loader).m_collections,
      ¬(d.path = c.path) := by
    intro d hd hdc
    rcases setAux_collections_paths loader hload paths m.clear m.m_collections
        [] d hd with hmem | hpath
    · simp [MaterialManager.clear] at hmem
    · rw [hdc] at hpath
      exact habs c.path hpath rfl
  refine ⟨?_, hpaths, ?_, rfl, ?_, ?_⟩
  · rw [setTextureCollections_toRemove m paths loader]
    exact List.mem_append.mpr (Or.inr hrem)
  · intro hmem
    exact hpaths c hmem rfl
  · intro d hd hdc
    obtain ⟨d0, hd0, hpath0⟩ :=
      commitChanges_collections_paths (m.setTextureCollections paths loader)
        d hd
    exact hpaths d0 hd0 (by rw [← hpath0, hdc])
  · intro hmem
    obtain ⟨d0, hd0, hpath0⟩ :=
      commitChanges_collections_paths (m.setTextureCollections paths loader)
        c hmem
    exact hpaths d0 hd0 hpath0.symm

theorem superseded_collection_deferred_until_commit_witness :
    colA ∈ managerW.m_collections ∧
    (∀ p ∈ (["b.tex"] : List String), ¬(colA.path = p)) ∧
    (∀ p d, loaderW p = Except.ok d → d.path = p) ∧
    colA ∈ (managerW.setTextureCollections ["b.tex"] loaderW).m_toRemove ∧
    colA ∉ (managerW.setTextureCollections ["b.tex"] loaderW).m_collections ∧
    (managerW.setTextureCollections
        ["b.tex"] loaderW).commitChanges.m_toRemove = [] ∧
    colA ∉ (managerW.setTextureCollections
        ["b.tex"] loaderW).commitChanges.m_collections := by
  have hload : ∀ p d, loaderW p = Except.ok d → d.path = p := by
    intro p d h
    unfold loaderW at h
    by_cases hp : p = "b.tex"
    · rw [if_pos hp] at h
      obtain rfl : colB = d := by injection h
      rw [hp]
      rfl
    · rw [if_neg hp] at h
      exact absurd h (by simp)
  have h :=
    superseded_collection_deferred_until_commit managerW loaderW ["b.tex"]
      colA (by decide) (by decide) hload
  exact ⟨by decide, by decide, hload, h.1, h.2.2.1, h.2.2.2.1, h.2.2.2.2.2⟩

/-! ### The pending-prepare invariant (claims C9 and C5) -/

/-- `PrepInv` together with strict monotonicity of the queued indices (the
queue records append positions in order, so it is duplicate-free). -/
def PrepInvS (m : MaterialManager) : Prop :=
  PrepInv m ∧ m.m_toPrepare.Pairwise (fun a b => a < b)

theorem getD_append_left (cs : List MaterialCollection)
    (c : MaterialCollection) (i : Nat) (hi : i < cs.length) :
    (cs ++ [c]).getD i (MaterialCollection.placeholder "")
      = cs.getD i (MaterialCollection.placeholder "") := by
  rw [List.getD_eq_getElem?_getD, List.getD_eq_getElem?_getD,
    List.getElem?_append_left hi]

theorem getD_append_length (cs : List MaterialCollection)
    (c : MaterialCollection) :
    (cs ++ [c]).getD cs.length (MaterialCollection.placeholder "") = c := by
  rw [List.getD_eq_getElem?_getD, List.getElem?_concat_length]
  rfl

theorem prepInv_add (m : MaterialManager) (c : MaterialCollection)
    (h : PrepInv m) : PrepInv (m.addTextureCollection c) := by
  intro i hi
  have hq : i ∈ (if c.loaded && !c.prepared
      then m.m_toPrepare ++ [m.m_collections.length]
      else m.m_toPrepare) := hi
  have hcols : (m.addTextureCollection c).m_collections
      = m.m_collections ++ [c] := rfl
  rw [show (m.addTextureCollection c).m_collections.length
      = m.m_collections.length + 1 by rw [hcols]; simp]
  by_cases hb : (c.loaded && !c.prepared) = true
  · rw [if_pos hb] at hq
    rcases List.mem_append.mp hq with hold | hnew
    · obtain ⟨hlt, hl, hp⟩ := h i hold
      refine ⟨Nat.lt_succ_of_lt hlt, ?_, ?_⟩ <;>
        rw [show (m.addTextureCollection c).m_collections
            = m.m_collections ++ [c] from rfl, getD_append_left _ _ _ hlt]
      · exact hl
      · exact hp
    · have hilen : i = m.m_collections.length := by simpa using hnew
      subst hilen
      rw [Bool.and_eq_true, Bool.not_eq_eq_eq_not] at hb
      refine ⟨Nat.lt_succ_self _, ?_, ?_⟩ <;>
        rw [show (m.addTextureCollection c).m_collections
            = m.m_collections ++ [c] from rfl, getD_append_length]
      · exact hb.1
      · simpa using hb.2
  · rw [if_neg hb] at hq
    obtain ⟨hlt, hl, hp⟩ := h i hq
    refine ⟨Nat.lt_succ_of_lt hlt, ?_, ?_⟩ <;>
      rw [show (m.addTextureCollection c).m_collections
          = m.m_collections ++ [c] from rfl, getD_append_left _ _ _ hlt]
    · exact hl
    · exact hp

theorem prepInvS_add (m : MaterialManager) (c : MaterialCollection)
    (h : PrepInvS m) : PrepInvS (m.addTextureCollection c) := by
  refine ⟨prepInv_add m c h.1, ?_⟩
  have hq : (m.addTextureCollection c).m_toPrepare
      = (if c.loaded && !c.prepared
         then m.m_toPrepare ++ [m.m_collections.length]
         else m.m_toPrepare) := rfl
  rw [hq]
  by_cases hb : (c.loaded && !c.prepared) = true
  · rw [if_pos hb]
    rw [List.pairwise_append]
    refine ⟨h.2, by simp, ?_⟩
    intro a ha b hb2
    have hblen : b = m.m_collections.length := by simpa using hb2
    subst hblen
    exact (h.1 a ha).1
  · rw [if_neg hb]
    exact h.2

theorem prepInvS_log (m : MaterialManager) (L : List LogLine)
    (h : PrepInvS m) : PrepInvS { m with m_log := L } := h

theorem prepInvS_loadAndAdd (loader : String → Except String MaterialCollection)
    (p : String) (b : Bool) (m : MaterialManager) (h : PrepInvS m) :
    PrepInvS (loadAndAdd loader p b m) := by
  unfold loadAndAdd
  cases hl : loader p with
  | error e =>
    show PrepInvS
      ((if b = true
        then { m with m_log := m.m_log ++ [LogLine.error (loadErrorMsg p e)] }
        else m).addTextureCollection (MaterialCollection.placeholder p))
    by_cases hb : b = true
    · rw [if_pos hb]
      exact prepInvS_add _ _ (prepInvS_log m _ h)
    · rw [if_neg hb]
      exact prepInvS_add _ _ h
  | ok c =>
    show PrepInvS
      ((if c.materials.isEmpty = true
        then m
        else { m with
                m_log := m.m_log ++ [LogLine.info (loadedMsg p)] }).addTextureCollection
        c)
    by_cases he : c.materials.isEmpty = true
    · rw [if_pos he]
      exact prepInvS_add _ _ h
    · rw [if_neg he]
      exact prepInvS_add _ _ (prepInvS_log m _ h)

theorem prepInvS_step (loader : String → Except String MaterialCollection)
    (p : String) (m : MaterialManager) (prev : List MaterialCollection)
    (calls : List String) (h : PrepInvS m) :
    PrepInvS (reconcileStep loader p (m, prev, calls)).1 := by
  rcases hef : extractFirst p prev with ⟨o, erest⟩
  cases o with
  | none =>
    rw [reconcileStep_fresh loader p m prev calls (by rw [hef])]
    exact prepInvS_loadAndAdd loader p true m h
  | some c =>
    by_cases hcl : c.loaded
    · rw [reconcileStep_found_loaded loader p m prev calls c (by rw [hef]) hcl]
      exact prepInvS_add m c h
    · rw [reconcileStep_found_notLoaded loader p m prev calls c (by rw [hef])
        (Bool.not_eq_true c.loaded ▸ hcl)]
      exact prepInvS_loadAndAdd loader p false m h

theorem prepInvS_setAux (loader : String → Except String MaterialCollection) :
    ∀ (paths : List String) (m : MaterialManager)
      (prev : List MaterialCollection) (calls : List String),
      PrepInvS m →
      PrepInvS (setTextureCollectionsAux loader paths (m, prev, calls)).1 := by
  intro paths
  induction paths with
  | nil => intro m prev calls h; exact h
  | cons p rest ih =>
    intro m prev calls h
    rw [setTextureCollectionsAux]
    rcases hst : reconcileStep loader p (m, prev, calls) with ⟨m1, prev1, calls1⟩
    have h1 : PrepInvS m1 := by
      have := prepInvS_step loader p m prev calls h
      rw [hst] at this
      exact this
    exact ih m1 prev1 calls1 h1

theorem prepInvS_clear (m : MaterialManager) : PrepInvS m.clear := by
  constructor
  · intro i hi
    exact absurd hi (List.not_mem_nil i)
  · exact List.Pairwise.nil

theorem prepInvS_reconcile (m : MaterialManager)
    (loader : String → Except String MaterialCollection)
    (paths : List String) :
    PrepInvS (m.setTextureCollections paths loader) :=
  prepInvS_setAux loader paths m.clear m.m_collections [] (prepInvS_clear m)

/-- C9: the pending-prepare queue invariant — every queued index is in
range and points at a loaded, not-yet-prepared collection — holds after
reconciliation unconditionally and is preserved by `addTextureCollection`,
`clear` and `commitChanges`. -/
theorem pending_prepare_indices_always_valid (m : MaterialManager)
    (loader : String → Except String MaterialCollection)
    (paths : List String) (c : MaterialCollection) (h : PrepInv m) :
    PrepInv (m.setTextureCollections paths loader) ∧
    PrepInv (m.addTextureCollection c) ∧
    PrepInv m.clear ∧
    PrepInv m.commitChanges := by
  refine ⟨(prepInvS_reconcile m loader paths).1, prepInv_add m c h, ?_, ?_⟩
  · intro i hi
    exact absurd hi (List.not_mem_nil i)
  · intro i hi
    exact absurd hi (List.not_mem_nil i)

theorem pending_prepare_indices_always_valid_witness :
    PrepInv managerW ∧ PrepInv (managerW.addTextureCollection colB) := by
  have h : PrepInv managerW := by
    intro i hi
    exact absurd hi (List.not_mem_nil i)
  exact ⟨h,
    (pending_prepare_indices_always_valid managerW loaderW [] colB h).2.1⟩

/-! ### Claim C5 -/

theorem foldPrepare_getD_not_mem (a b : Int) :
    ∀ (idxs : List Nat) (cs : List MaterialCollection) (i : Nat), i ∉ idxs →
      (idxs.foldl
          (fun cs index =>
            cs.set index
              ((cs.getD index (MaterialCollection.placeholder "")).prepare a b))
          cs).getD i (MaterialCollection.placeholder "")
        = cs.getD i (MaterialCollection.placeholder "") := by
  intro idxs
  induction idxs with
  | nil => intro cs i _; rfl
  | cons j rest ih =>
    intro cs i hni
    have hij : ¬(i = j) := fun h => hni (by simp [h])
    have hrest : i ∉ rest := fun h => hni (by simp [h])
    rw [List.foldl_cons, ih _ i hrest, List.getD_eq_getElem?_getD,
      List.getElem?_set_ne (fun h => hij h.symm), ← List.getD_eq_getElem?_getD]

theorem foldPrepare_getD_mem (a b : Int) :
    ∀ (idxs : List Nat) (cs : List MaterialCollection) (i : Nat),
      idxs.Nodup → i ∈ idxs → i < cs.length →
      (idxs.foldl
          (fun cs index =>
            cs.set index
              ((cs.getD index (MaterialCollection.placeholder "")).prepare a b))
          cs).getD i (MaterialCollection.placeholder "")
        = (cs.getD i (MaterialCollection.placeholder "")).prepare a b := by
  intro idxs
  induction idxs with
  | nil => intro cs i _ hi; simp at hi
  | cons j rest ih =>
    intro cs i hnd hi hlt
    rw [List.nodup_cons] at hnd
    rw [List.foldl_cons]
    by_cases hij : i = j
    · subst hij
      rw [foldPrepare_getD_not_mem a b rest _ i hnd.1,
        List.getD_eq_getElem?_getD, List.getElem?_set_self hlt]
      rfl
    · have hirest : i ∈ rest := by
        rcases List.mem_cons.mp hi with h | h
        · exact absurd h hij
        · exact h
      have hlt2 : i < (cs.set j
          ((cs.getD j (MaterialCollection.placeholder "")).prepare a b)).length := by
        rw [List.length_set]
        exact hlt
      rw [ih _ i hnd.2 hirest hlt2, List.getD_eq_getElem?_getD,
        List.getElem?_set_ne (fun h => hij h.symm), ← List.getD_eq_getElem?_getD]

theorem resetTextureMode_frame (m : MaterialManager) :
    m.resetTextureMode.m_toPrepare = m.m_toPrepare ∧
    m.resetTextureMode.m_minFilter = m.m_minFilter ∧
    m.resetTextureMode.m_magFilter = m.m_magFilter ∧
    m.resetTextureMode.m_collections.length = m.m_collections.length := by
  unfold MaterialManager.resetTextureMode
  by_cases hb : m.m_resetTextureMode <;> simp [hb]

theorem resetTextureMode_getD_unprepared (m : MaterialManager) (i : Nat)
    (hlt : i < m.m_collections.length)
    (hnp : (m.m_collections.getD i
        (MaterialCollection.placeholder "")).prepared = false) :
    m.resetTextureMode.m_collections.getD i (MaterialCollection.placeholder "")
      = m.m_collections.getD i (MaterialCollection.placeholder "") := by
  have hx : m.m_collections.getD i (MaterialCollection.placeholder "")
      = m.m_collections[i] := by
    rw [List.getD_eq_getElem?_getD, List.getElem?_eq_getElem hlt]
    rfl
  unfold MaterialManager.resetTextureMode
  by_cases hb : m.m_resetTextureMode
  · rw [if_pos hb]
    simp only
    rw [List.getD_eq_getElem?_getD, List.getElem?_map,
      List.getElem?_eq_getElem hlt, hx]
    show ((m.m_collections[i]).setFilterMode m.m_minFilter m.m_magFilter) = _
    unfold MaterialCollection.setFilterMode
    rw [hx] at hnp
    rw [if_neg (by rw [hnp]; exact Bool.false_ne_true)]
  · rw [if_neg hb]

theorem commit_prepares_pending_index (m : MaterialManager) (i : Nat)
    (hS : PrepInvS m) (hi : i ∈ m.m_toPrepare) :
    m.commitChanges.m_toPrepare = [] ∧
    (m.commitChanges.m_collections.getD i
        (MaterialCollection.placeholder "")).prepared = true ∧
    (m.commitChanges.m_collections.getD i
        (MaterialCollection.placeholder "")).prepareCount
      = (m.m_collections.getD i
          (MaterialCollection.placeholder "")).prepareCount + 1 ∧
    (m.commitChanges.m_collections.getD i
        (MaterialCollection.placeholder "")).minFilter = m.m_minFilter ∧
    (m.commitChanges.m_collections.getD i
        (MaterialCollection.placeholder "")).magFilter = m.m_magFilter := by
  obtain ⟨hlt, hl, hp⟩ := hS.1 i hi
  have hnd : m.m_toPrepare.Nodup :=
    hS.2.imp (fun h => Nat.ne_of_lt h)
  have hframe := resetTextureMode_frame m
  have hcols : m.commitChanges.m_collections
      = m.resetTextureMode.m_toPrepare.foldl
          (fun cs index =>
            cs.set index
              ((cs.getD index (MaterialCollection.placeholder "")).prepare
                m.resetTextureMode.m_minFilter m.resetTextureMode.m_magFilter))
          m.resetTextureMode.m_collections := rfl
  have hkey :=
    foldPrepare_getD_mem m.resetTextureMode.m_minFilter
      m.resetTextureMode.m_magFilter m.resetTextureMode.m_toPrepare
      m.resetTextureMode.m_collections i
      (by rw [hframe.1]; exact hnd) (by rw [hframe.1]; exact hi)
      (by rw [hframe.2.2.2]; exact hlt)
  have hsame :
      m.resetTextureMode.m_collections.getD i (MaterialCollection.placeholder "")
        = m.m_collections.getD i (MaterialCollection.placeholder "") :=
    resetTextureMode_getD_unprepared m i hlt hp
  have hval : m.commitChanges.m_collections.getD i
      (MaterialCollection.placeholder "")
      = (m.m_collections.getD i (MaterialCollection.placeholder "")).prepare
          m.m_minFilter m.m_magFilter := by
    rw [hcols, hkey, hsame, hframe.2.1, hframe.2.2.1]
  refine ⟨rfl, ?_, ?_, ?_, ?_⟩ <;> rw [hval] <;> rfl

/-- C5: every collection newly enqueued by reconcile (its index sits in
the pending-prepare queue) is still unprepared at the end of reconcile,
and the next `commitChanges` drains the queue and applies the collection's
one-time `prepare` with the current filter settings exactly once. -/
theorem new_collections_prepared_exactly_once_at_commit (m : MaterialManager)
    (loader : String → Except String MaterialCollection)
    (paths : List String) (i : Nat)
    (hi : i ∈ (m.setTextureCollections paths loader).m_toPrepare) :
    ((m.setTextureCollections paths loader).m_collections.getD i
        (MaterialCollection.placeholder "")).loaded = true ∧
    ((m.setTextureCollections paths loader).m_collections.getD i
        (MaterialCollection.placeholder "")).prepared = false ∧
    (m.setTextureCollections paths loader).commitChanges.m_toPrepare = [] ∧
    ((m.setTextureCollections paths loader).commitChanges.m_collections.getD i
        (MaterialCollection.placeholder "")).prepared = true ∧
    ((m.setTextureCollections paths loader).commitChanges.m_collections.getD i
        (MaterialCollection.placeholder "")).prepareCount
      = ((m.setTextureCollections paths loader).m_collections.getD i
          (MaterialCollection.placeholder "")).prepareCount + 1 ∧
    ((m.setTextureCollections paths loader).commitChanges.m_collections.getD i
        (MaterialCollection.placeholder "")).minFilter
      = (m.setTextureCollections paths loader).m_minFilter ∧
    ((m.setTextureCollections paths loader).commitChanges.m_collections.getD i
        (MaterialCollection.placeholder "")).magFilter
      = (m.setTextureCollections paths loader).m_magFilter := by
  have hS := prepInvS_reconcile m loader paths
  obtain ⟨hlt, hl, hp⟩ := hS.1 i hi
  have h :=
    commit_prepares_pending_index (m.setTextureCollections paths loader) i hS hi
  exact ⟨hl, hp, h.1, h.2.1, h.2.2.1, h.2.2.2.1, h.2.2.2.2⟩

theorem new_collections_prepared_exactly_once_at_commit_witness :
    0 ∈ (emptyManager.setTextureCollections ["a.tex"] loaderOkA).m_toPrepare ∧
    ((emptyManager.setTextureCollections
        ["a.tex"] loaderOkA).m_collections.getD 0
        (MaterialCollection.placeholder "")).prepared = false ∧
    ((emptyManager.setTextureCollections
        ["a.tex"] loaderOkA).commitChanges.m_collections.getD 0
        (MaterialCollection.placeholder "")).prepared = true := by
  have hi : 0 ∈ (emptyManager.setTextureCollections
      ["a.tex"] loaderOkA).m_toPrepare := by decide
  have h :=
    new_collections_prepared_exactly_once_at_commit emptyManager loaderOkA
      ["a.tex"] 0 hi
  exact ⟨hi, h.2.1, h.2.2.2.1⟩

end TBSpec
